import Mathlib

/-!
Verification of `dna_mnemonic` (src/dna_mnemonic/dna_mnemonic.py).

The Python source is shallowly embedded below.  Conventions:

* arbitrary-precision Python ints become `Nat` (all values here are
  non-negative);
* functions that can `raise` return `Except Err _`; an `Err` value names the
  raise site, so "fails atomically with error E" is `= .error e`;
* `while` loops driven by a shrinking numeric value are written as
  structural recursions on a fuel argument initialised with the value
  itself (the value strictly decreases on every iteration, so fuel equal to
  the initial value can never run out; fuel-irrelevance lemmas are proved
  where needed);
* Python `str` is Lean `String`; `str.lower` / `str.title` / `str.strip` /
  `str.split` are embedded at their ASCII semantics, which is exact for
  every character that can appear in the repository's word lists;
* `is_full_base_x` in the source evaluates
  `math.modf(math.log(number, base))[0] == 0` on IEEE doubles.  It is
  embedded at exact-real semantics: the fractional part of
  `log base number` is zero iff `number` is an integer power of `base`
  (`number ≥ 1`).  The divergence of the floating-point code from this
  ideal at 216 = 6^3 is the subject of one of the claims below;
  `math.log(0, base)` raises `ValueError`, embedded as `Err.mathDomain`.
-/

/-- Raise sites of the Python source. -/
inductive Err where
  /-- `up2bit`: `('A','C','T','G').index(char)` raises `ValueError`. -/
  | invalidBaseChar : Err
  /-- `up2bit_decode`: "expect odd number of bits in up2bit encoding". -/
  | formatParity : Err
  /-- `up2bit_decode`: "Expecting a cap of 0b01, but got ...". -/
  | formatCap : Err
  /-- `decode_dice`: `('1',...,'6').index(digit)` raises `ValueError`. -/
  | badDice : Err
  /-- `read_wordlist`: `digits, word = line.split("\t")` unpacking fails. -/
  | badLine : Err
  /-- `read_wordlist`: "read multiple identical words for index {i}". -/
  | dupIndex (i : Nat) : Err
  /-- `read_wordlist`: "missing for index {i}". -/
  | missingIndex (i : Nat) : Err
  /-- `read_wordlist`: "total words {n} is not an full range ...". -/
  | invalidSize (n : Nat) : Err
  /-- `math.log(0, base)` raises `ValueError: math domain error`. -/
  | mathDomain : Err
  /-- `encode_sequence`: `len(as_hexal) % 0` raises `ZeroDivisionError`. -/
  | zeroDivision : Err
  /-- a `wordlist[i]` lookup out of range raises `IndexError`. -/
  | indexOutOfRange : Err
  /-- `decode_mnemonic`: "Word {w} not in wordlist.". -/
  | unknownWord (w : String) : Err
deriving DecidableEq, Repr

/-! ### ASCII case mapping (Python `str.lower` / `str.title`) -/

/-- Python `str.lower` on one ASCII character. -/
def char_lower (c : Char) : Char :=
  if 65 ≤ c.toNat ∧ c.toNat ≤ 90 then Char.ofNat (c.toNat + 32) else c

/-- Python `str.upper` on one ASCII character. -/
def char_upper (c : Char) : Char :=
  if 97 ≤ c.toNat ∧ c.toNat ≤ 122 then Char.ofNat (c.toNat - 32) else c

/-- ASCII alphabetic test (Python `str.isalpha` restricted to ASCII). -/
def ascii_alpha (c : Char) : Bool :=
  (65 ≤ c.toNat && c.toNat ≤ 90) || (97 ≤ c.toNat && c.toNat ≤ 122)

/-- Python `str.lower`. -/
def py_lower (s : String) : String := ⟨s.data.map char_lower⟩

/-- Python `str.title`, one character at a time; the flag is true when the
previous character was not alphabetic (so the next letter is upper-cased). -/
def title_go : Bool → List Char → List Char
  | _, [] => []
  | up, c :: rest =>
    if ascii_alpha c then
      (if up then char_upper c else char_lower c) :: title_go false rest
    else
      c :: title_go true rest

/-- Python `str.title`. -/
def py_title (s : String) : String := ⟨title_go true s.data⟩

/-! ### up2bit codec -/

/-- `('A','C','T','G').index(char)`: the 2-bit code of a base. -/
def char_twobit (c : Char) : Option Nat :=
  if c = 'A' then some 0
  else if c = 'C' then some 1
  else if c = 'T' then some 2
  else if c = 'G' then some 3
  else none

/-- `('A','C','T','G')[twobit]`: the base letter of a 2-bit code. -/
def code_char (t : Nat) : Char :=
  if t = 0 then 'A' else if t = 1 then 'C' else if t = 2 then 'T' else 'G'

/-- The accumulator loop of `up2bit`, over the reversed character list:
`result = (result << 2) + twobit`. -/
def up2bit_go : Nat → List Char → Except Err Nat
  | acc, [] => .ok acc
  | acc, c :: rest =>
    match char_twobit c with
    | some t => up2bit_go (acc * 4 + t) rest
    | none => .error .invalidBaseChar

/-- `up2bit(dna_sequence)`: encode a DNA string as a capped integer.
The accumulator starts at 1 (the cap) and the bases are processed from the
end of the string towards the start. -/
def up2bit (dna_sequence : String) : Except Err Nat :=
  up2bit_go 1 dna_sequence.data.reverse

/-- `int.bit_length`, fuel-based (`fuel ≥ n` suffices). -/
def bit_length_aux : Nat → Nat → Nat
  | 0, _ => 0
  | fuel + 1, n => if n = 0 then 0 else bit_length_aux fuel (n / 2) + 1

/-- Python `int.bit_length()`. -/
def bit_length (n : Nat) : Nat := bit_length_aux n n

/-- The extraction loop of `up2bit_decode`: repeatedly take the low two bits
(`remaining & 0x03`) and shift right by two, until the value is zero.
Fuel-based; `fuel ≥ v` suffices. -/
def extract_aux : Nat → Nat → List Nat
  | 0, _ => []
  | fuel + 1, v => if v = 0 then [] else v % 4 :: extract_aux fuel (v / 4)

/-- All 2-bit codes extracted from a value, in extraction order
(least-significant pair first, cap last). -/
def extract (v : Nat) : List Nat := extract_aux v v

/-- `up2bit_decode(up2bit_value)`: decode a capped integer back to a DNA
string.  Raises on even bit-length; after the loop the final extracted code
(the cap) must be `0b01` and is popped from the result. -/
def up2bit_decode (up2bit_value : Nat) : Except Err String :=
  if bit_length up2bit_value % 2 ≠ 1 then .error .formatParity
  else
    let codes := extract up2bit_value
    match codes.getLast? with
    | some 1 => .ok ⟨(codes.dropLast.map code_char)⟩
    | _ => .error .formatCap

/-! ### Dice codes and word-list loading -/

/-- `('1','2','3','4','5','6').index(digit)`. -/
def dice_digit (c : Char) : Option Nat :=
  if '1' ≤ c ∧ c ≤ '6' then some (c.toNat - 49) else none

/-- The loop of `decode_dice` over the reversed digit string:
`result = result + hexit * 6**position`. -/
def decode_dice_go : List Char → Nat → Except Err Nat
  | [], _ => .ok 0
  | c :: rest, pos =>
    match dice_digit c with
    | some h =>
      match decode_dice_go rest (pos + 1) with
      | .ok r => .ok (h * 6 ^ pos + r)
      | .error e => .error e
    | none => .error .badDice

/-- `decode_dice(digits)`: a `123456`-style base-6 number, most-significant
character first. -/
def decode_dice (digits : String) : Except Err Nat :=
  decode_dice_go digits.data.reverse 0

/-- Python whitespace for `str.strip`. -/
def py_space (c : Char) : Bool :=
  c = ' ' || c = '\t' || c = '\n' || c = '\r' || c = '\x0b' || c = '\x0c'

/-- Python `str.strip()`. -/
def py_strip (s : String) : String :=
  ⟨((s.data.dropWhile py_space).reverse.dropWhile py_space).reverse⟩

/-- Python `str.split("\t")` (split on every tab). -/
def split_tab_go : List Char → List Char → List String
  | acc, [] => [⟨acc.reverse⟩]
  | acc, c :: rest =>
    if c = '\t' then ⟨acc.reverse⟩ :: split_tab_go [] rest
    else split_tab_go (c :: acc) rest

/-- Python `line.split("\t")`. -/
def split_tab (s : String) : List String := split_tab_go [] s.data

/-- Parse one line of a word-list file: after stripping, a line containing a
tab is a Diceware line `code<TAB>word` whose index is the dice code, and any
other line is a flat line whose index is its 0-based position `pos`. -/
def parse_line (pos : Nat) (raw : String) : Except Err (Nat × String) :=
  let line := py_strip raw
  if line.data.contains '\t' then
    match split_tab line with
    | [digits, word] =>
      match decode_dice digits with
      | .ok v => .ok (v, word)
      | .error e => .error e
    | _ => .error .badLine
  else .ok (pos, line)

/-- Store a word at an index: grow the list with `None` entries up to the
index, fail if the slot is already filled, else fill it with the
lower-cased word. -/
def store (wl : List (Option String)) (idx : Nat) (w : String) :
    Except Err (List (Option String)) :=
  if ((wl ++ List.replicate (idx + 1 - wl.length) none).getD idx none).isSome
  then .error (.dupIndex idx)
  else .ok ((wl ++ List.replicate (idx + 1 - wl.length) none).set idx (some (py_lower w)))

/-- The line loop of `read_wordlist`. -/
def read_loop : Nat → List String → List (Option String) →
    Except Err (List (Option String))
  | _, [], wl => .ok wl
  | pos, line :: rest, wl =>
    match parse_line pos line with
    | .ok (idx, w) =>
      match store wl idx w with
      | .ok wl' => read_loop (pos + 1) rest wl'
      | .error e => .error e
    | .error e => .error e

/-- Position of the first `None` entry, if any (the missing-index check). -/
def first_none_aux : Nat → List (Option String) → Option Nat
  | _, [] => none
  | i, entry :: rest =>
    match entry with
    | none => some i
    | some _ => first_none_aux (i + 1) rest

/-- First unfilled index of a partial word list. -/
def first_none (wl : List (Option String)) : Option Nat := first_none_aux 0 wl

/-- `is_full_base_x(number, base)` at exact-real semantics: the fractional
part of `log base number` is zero iff `number` is an integer power of
`base`.  (The source computes this with `math.modf(math.log(...))` on IEEE
doubles; see the claims about its floating-point error.)  The bound
`k ≤ number` is only there to make the test executable; it is not a
restriction for `base ≥ 2` (then `base ^ k = number` forces `k < number`),
nor for `base = 6`, `number = 1` (`k = 0`). -/
def is_full_base_x (number base : Nat) : Bool :=
  (List.range (number + 1)).any (fun k => base ^ k == number)

/-- `read_wordlist(file_handle)` over an already-split list of lines. -/
def read_wordlist (lines : List String) : Except Err (List String) :=
  match read_loop 0 lines [] with
  | .error e => .error e
  | .ok wl =>
    match first_none wl with
    | some i => .error (.missingIndex i)
    | none =>
      if wl.reduceOption.length = 0 then .error .mathDomain
      else if ¬ is_full_base_x wl.reduceOption.length 2 ∧
        ¬ is_full_base_x wl.reduceOption.length 6
      then .error (.invalidSize wl.reduceOption.length)
      else .ok wl.reduceOption

/-- `generate_inverse_wordlist(wordlist)`: the Python dict
`{word: value for value, word in enumerate(wordlist)}`, as an association
list with unique keys in insertion order; a repeated word keeps its first
position but takes the latest value, exactly like a Python dict. -/
def dict_insert (d : List (String × Nat)) (k : String) (v : Nat) :
    List (String × Nat) :=
  if d.any (fun p => p.1 == k) then
    d.map (fun p => if p.1 == k then (k, v) else p)
  else d ++ [(k, v)]

/-- Build the inverse word list (word → index dict). -/
def generate_inverse_wordlist (wordlist : List String) : List (String × Nat) :=
  (wordlist.enum).foldl (fun d p => dict_insert d p.2 p.1) []

/-- Dict lookup (`d[k]` / `k in d`). -/
def dict_get (d : List (String × Nat)) (k : String) : Option Nat :=
  (d.find? (fun p => p.1 == k)).map (fun p => p.2)

/-! ### Digit decomposition and the mnemonic codec -/

/-- `math.floor(math.log(n, base))` at exact-real semantics, fuel-based
(`fuel ≥ n` suffices for `base ≥ 2`). -/
def ilog_aux (base : Nat) : Nat → Nat → Nat
  | 0, _ => 0
  | fuel + 1, n => if n < base then 0 else ilog_aux base fuel (n / base) + 1

/-- Integer part of `log base n` (the block size computation). -/
def ilog (base n : Nat) : Nat := ilog_aux base n n

/-- The loop of `convert_base_x`: `num, digit = divmod(num, base)`,
fuel-based (`fuel ≥ num` suffices for `base ≥ 2`). -/
def convert_aux (base : Nat) : Nat → Nat → List Nat
  | 0, _ => []
  | fuel + 1, num => if num = 0 then [] else num % base :: convert_aux base fuel (num / base)

/-- `convert_base_x(num, base)`: digits of `num`, least significant first;
`0` gives the empty list. -/
def convert_base_x (num base : Nat) : List Nat := convert_aux base num num

/-- `sum(digit * (base ** pos) for pos, digit in enumerate(digits))`:
recompose a least-significant-first digit list. -/
def from_digits (digits : List Nat) (base : Nat) : Nat :=
  digits.foldr (fun d acc => d + base * acc) 0

/-- The slicing generator `(l[x:x+k] for x in range(0, len(l), k))`,
fuel-based (`fuel ≥ l.length` suffices for `k ≥ 1`). -/
def chunk_aux (k : Nat) : Nat → List Nat → List (List Nat)
  | 0, _ => []
  | fuel + 1, l => if l.isEmpty then [] else l.take k :: chunk_aux k fuel (l.drop k)

/-- Split a digit list into consecutive blocks of `k` digits. -/
def chunk (k : Nat) (l : List Nat) : List (List Nat) := chunk_aux k l.length l

/-- The binary encoding loop of `encode_sequence`:
`this_block = remaining & mask; remaining >>= blocksize`, i.e. the base
`2^blocksize` digits of the value.  Fuel-based (`fuel ≥ v` suffices for
`blocksize ≥ 1`). -/
def bin_chunks_aux (blocksize : Nat) : Nat → Nat → List Nat
  | 0, _ => []
  | fuel + 1, v =>
    if v = 0 then [] else v % 2 ^ blocksize :: bin_chunks_aux blocksize fuel (v / 2 ^ blocksize)

/-- All binary blocks of a value, least significant first. -/
def bin_chunks (blocksize v : Nat) : List Nat := bin_chunks_aux blocksize v v

/-- A `wordlist[index]` lookup (`IndexError` when out of range). -/
def wl_lookup (wordlist : List String) (index : Nat) : Except Err String :=
  match wordlist.get? index with
  | some w => .ok w
  | none => .error .indexOutOfRange

/-- The body of both encoding loops: look each index up in the word list
and append the title-cased word (`mnemonic.append(word.title())`). -/
def map_words (wordlist : List String) : List Nat → Except Err (List String)
  | [] => .ok []
  | index :: rest =>
    match wl_lookup wordlist index with
    | .ok word =>
      match map_words wordlist rest with
      | .ok ws => .ok (py_title word :: ws)
      | .error e => .error e
    | .error e => .error e

/-- The hexal branch of `encode_sequence`: base-6 digits of the value,
zero-padded at the high end to a multiple of the block size, cut into
blocks, each block recomposed into a word-list index.  A block size of 0
(word list of size 1) makes the padding condition `len(as_hexal) % 0`
raise `ZeroDivisionError`. -/
def encode_hexal (up2bit_value : Nat) (wordlist : List String) :
    Except Err (List String) :=
  let hexal_blocksize := ilog 6 wordlist.length
  if hexal_blocksize = 0 then .error .zeroDivision
  else
    let as_hexal := convert_base_x up2bit_value 6
    let padded := as_hexal ++
      List.replicate ((hexal_blocksize - as_hexal.length % hexal_blocksize) % hexal_blocksize) 0
    map_words wordlist ((chunk hexal_blocksize padded).map (fun blk => from_digits blk 6))

/-- The binary branch of `encode_sequence`: repeatedly mask off
`blocksize` low bits and shift. -/
def encode_binary (up2bit_value : Nat) (wordlist : List String) :
    Except Err (List String) :=
  map_words wordlist (bin_chunks (ilog 2 wordlist.length) up2bit_value)

/-- `encode_sequence(dna_sequence, wordlist)`: up2bit-encode the sequence,
then cut the value into word-sized digit blocks (base 6 when the word-list
size is a power of 6, else base 2) and map each block to a title-cased
word, least-significant block first.  A word list of size 0 makes
`math.log` raise (`ValueError`). -/
def encode_sequence (dna_sequence : String) (wordlist : List String) :
    Except Err (List String) :=
  match up2bit dna_sequence with
  | .error e => .error e
  | .ok up2bit_value =>
    if wordlist.length = 0 then .error .mathDomain
    else if is_full_base_x wordlist.length 6 then
      encode_hexal up2bit_value wordlist
    else
      encode_binary up2bit_value wordlist

/-- The hexal value reconstruction of `decode_mnemonic`: each word's value
becomes base-6 digits right-padded with zeros to the block size, the blocks
are flattened and recomposed. -/
def decode_hexal_value (values : List Nat) (hexal_blocksize : Nat) : Nat :=
  from_digits ((values.map (fun value => convert_base_x value 6 ++
    List.replicate (hexal_blocksize - (convert_base_x value 6).length) 0)).flatten) 6

/-- `decode_mnemonic(mnemonic, inverse_wordlist=...)`: lower-case every
word, reject the first word missing from the inverse dict, map words to
index values, reassemble the up2bit value (base 6 per-word digit blocks
padded to the block size, or base-2 blocks), and up2bit-decode it. -/
def decode_mnemonic (mnemonic : List String) (inverse_wordlist : List (String × Nat)) :
    Except Err String :=
  match (mnemonic.map py_lower).find? (fun w => !(dict_get inverse_wordlist w).isSome) with
  | some w => .error (.unknownWord w)
  | none =>
    if inverse_wordlist.length = 0 then .error .mathDomain
    else if is_full_base_x inverse_wordlist.length 6 then
      up2bit_decode (decode_hexal_value
        ((mnemonic.map py_lower).map (fun w => (dict_get inverse_wordlist w).getD 0))
        (ilog 6 inverse_wordlist.length))
    else
      up2bit_decode (from_digits
        ((mnemonic.map py_lower).map (fun w => (dict_get inverse_wordlist w).getD 0))
        (2 ^ ilog 2 inverse_wordlist.length))

/-! ### Statement-level helpers -/

/-- The 2-bit code of a base character, defaulting to 0 (only used under a
validity hypothesis). -/
def tb (c : Char) : Nat := (char_twobit c).getD 0

/-- The pure value of the `up2bit` accumulator loop:
`u2 [] = 1`, `u2 (c :: l) = u2 l * 4 + tb c`. -/
def u2 (l : List Char) : Nat := l.foldr (fun c a => a * 4 + tb c) 1

/-- A string over the alphabet `{A, C, T, G}`. -/
abbrev valid_dna (s : String) : Prop := ∀ c ∈ s.data, (char_twobit c).isSome

/-- A string over the dice characters `'1'..'6'`. -/
abbrev valid_dice (s : String) : Prop := ∀ c ∈ s.data, (dice_digit c).isSome

/-- The index/word assignment of every line of a word-list file, in file
order (`none` when some line fails to parse). -/
def parses : Nat → List String → Option (List (Nat × String))
  | _, [] => some []
  | pos, line :: rest =>
    match parse_line pos line with
    | .ok p => (parses (pos + 1) rest).map (fun ps => p :: ps)
    | .error _ => none

/-- The line loop of `read_wordlist`, expressed on the parsed
index/word assignments. -/
def storeFold : List (Option String) → List (Nat × String) →
    Except Err (List (Option String))
  | acc, [] => .ok acc
  | acc, p :: rest =>
    match store acc p.1 p.2 with
    | .ok acc' => storeFold acc' rest
    | .error e => .error e

/-- Most-significant-first value of a dice string (digit = character − '1'):
the reading order the claims describe. -/
def dice_msb_value (s : String) : Nat :=
  s.data.foldl (fun a c => 6 * a + (c.toNat - 49)) 0

/-- A 36-line Diceware fixture whose code column has 4 characters
(indices 0..35, 36 = 6^2 words). -/
def dice4_lines : List String :=
  ["1111\tw11", "1112\tw12", "1113\tw13", "1114\tw14", "1115\tw15", "1116\tw16",
   "1121\tw21", "1122\tw22", "1123\tw23", "1124\tw24", "1125\tw25", "1126\tw26",
   "1131\tw31", "1132\tw32", "1133\tw33", "1134\tw34", "1135\tw35", "1136\tw36",
   "1141\tw41", "1142\tw42", "1143\tw43", "1144\tw44", "1145\tw45", "1146\tw46",
   "1151\tw51", "1152\tw52", "1153\tw53", "1154\tw54", "1155\tw55", "1156\tw56",
   "1161\tw61", "1162\tw62", "1163\tw63", "1164\tw64", "1165\tw65", "1166\tw66"]

/-- The word list loaded from `dice4_lines`. -/
def dice4_words : List String :=
  ["w11", "w12", "w13", "w14", "w15", "w16",
   "w21", "w22", "w23", "w24", "w25", "w26",
   "w31", "w32", "w33", "w34", "w35", "w36",
   "w41", "w42", "w43", "w44", "w45", "w46",
   "w51", "w52", "w53", "w54", "w55", "w56",
   "w61", "w62", "w63", "w64", "w65", "w66"]

/-! ## Theorems -/

/-! ### The up2bit codec -/

theorem tb_lt (c : Char) : tb c < 4 := by
  unfold tb char_twobit
  split
  · decide
  split
  · decide
  split
  · decide
  split
  · decide
  · decide

theorem char_twobit_eq_some {c : Char} (h : (char_twobit c).isSome) :
    char_twobit c = some (tb c) := by
  unfold tb
  cases hc : char_twobit c with
  | some t => rfl
  | none => rw [hc] at h; simp at h

theorem code_tb {c : Char} (h : (char_twobit c).isSome) : code_char (tb c) = c := by
  unfold char_twobit at *
  unfold tb code_char
  split at h
  · subst c; rfl
  split at h
  · subst c; rfl
  split at h
  · subst c; rfl
  split at h
  · subst c; rfl
  · simp at h

theorem u2_nil : u2 [] = 1 := rfl

theorem u2_cons (c : Char) (l : List Char) : u2 (c :: l) = u2 l * 4 + tb c := rfl

theorem up2bit_go_nil (acc : Nat) : up2bit_go acc [] = .ok acc := rfl

theorem up2bit_go_cons (acc : Nat) (c : Char) (rest : List Char) :
    up2bit_go acc (c :: rest) =
      match char_twobit c with
      | some t => up2bit_go (acc * 4 + t) rest
      | none => .error .invalidBaseChar := rfl

theorem up2bit_go_append (acc : Nat) (l₁ l₂ : List Char) :
    up2bit_go acc (l₁ ++ l₂) =
      match up2bit_go acc l₁ with
      | .ok a => up2bit_go a l₂
      | .error e => .error e := by
  induction l₁ generalizing acc with
  | nil => rfl
  | cons c rest ih =>
    rw [List.cons_append]
    cases hc : char_twobit c with
    | some t =>
      simp only [up2bit_go_cons, hc]
      exact ih (acc * 4 + t)
    | none => simp only [up2bit_go_cons, hc]

theorem up2bit_go_reverse (l : List Char) (acc : Nat)
    (h : ∀ c ∈ l, (char_twobit c).isSome) :
    up2bit_go acc l.reverse = .ok (l.foldr (fun c a => a * 4 + tb c) acc) := by
  induction l generalizing acc with
  | nil => rfl
  | cons c rest ih =>
    rw [List.reverse_cons, up2bit_go_append,
      ih acc (fun x hx => h x (List.mem_cons_of_mem c hx))]
    simp only [up2bit_go_cons, up2bit_go_nil,
      char_twobit_eq_some (h c (List.mem_cons_self c rest)), List.foldr_cons]

theorem up2bit_eq {s : String} (h : valid_dna s) : up2bit s = .ok (u2 s.data) :=
  up2bit_go_reverse s.data 1 h

theorem u2_bounds (l : List Char) : 4 ^ l.length ≤ u2 l ∧ u2 l < 2 * 4 ^ l.length := by
  induction l with
  | nil => exact ⟨Nat.le_refl 1, Nat.one_lt_two⟩
  | cons c rest ih =>
    have ht := tb_lt c
    rw [u2_cons, List.length_cons, pow_succ]
    constructor
    · calc 4 ^ rest.length * 4 ≤ u2 rest * 4 := Nat.mul_le_mul_right 4 ih.1
        _ ≤ u2 rest * 4 + tb c := Nat.le_add_right _ _
    · calc u2 rest * 4 + tb c < u2 rest * 4 + 4 := Nat.add_lt_add_left ht _
        _ = (u2 rest + 1) * 4 := by ring
        _ ≤ (2 * 4 ^ rest.length) * 4 := Nat.mul_le_mul_right 4 ih.2
        _ = 2 * (4 ^ rest.length * 4) := by ring

theorem u2_pos (l : List Char) : 1 ≤ u2 l :=
  Nat.le_trans (Nat.one_le_pow _ _ (by omega)) (u2_bounds l).1

theorem bit_length_aux_irrel (f₁ : Nat) : ∀ f₂ n, n ≤ f₁ → n ≤ f₂ →
    bit_length_aux f₁ n = bit_length_aux f₂ n := by
  induction f₁ with
  | zero =>
    intro f₂ n h₁ _
    interval_cases n
    cases f₂ <;> rfl
  | succ f ih =>
    intro f₂ n h₁ h₂
    cases f₂ with
    | zero =>
      interval_cases n
      rfl
    | succ f' =>
      show (if n = 0 then 0 else bit_length_aux f (n / 2) + 1) =
        (if n = 0 then 0 else bit_length_aux f' (n / 2) + 1)
      by_cases hn : n = 0
      · simp [hn]
      · have hd : n / 2 < n := Nat.div_lt_self (Nat.pos_of_ne_zero hn) Nat.one_lt_two
        rw [if_neg hn, if_neg hn, ih f' (n / 2) (by omega) (by omega)]

theorem bit_length_rec {n : Nat} (h : n ≠ 0) :
    bit_length n = bit_length (n / 2) + 1 := by
  unfold bit_length
  obtain ⟨m, rfl⟩ : ∃ m, n = m + 1 := ⟨n - 1, by omega⟩
  show (if m + 1 = 0 then 0 else bit_length_aux m ((m + 1) / 2) + 1) = _
  rw [if_neg (Nat.succ_ne_zero m)]
  have hle : (m + 1) / 2 ≤ m := by omega
  rw [bit_length_aux_irrel m ((m + 1) / 2) ((m + 1) / 2) hle (Nat.le_refl _)]

theorem bit_length_char {k : Nat} : ∀ n, 2 ^ k ≤ n → n < 2 ^ (k + 1) →
    bit_length n = k + 1 := by
  induction k with
  | zero =>
    intro n h₁ h₂
    interval_cases n
    rfl
  | succ k ih =>
    intro n h₁ h₂
    have hn : n ≠ 0 := by
      have : 0 < 2 ^ (k + 1) := Nat.pos_pow_of_pos _ (by omega)
      omega
    rw [bit_length_rec hn, ih (n / 2)]
    · rw [Nat.le_div_iff_mul_le (by omega : 0 < 2)]
      rw [pow_succ] at h₁
      exact h₁
    · rw [Nat.div_lt_iff_lt_mul (by omega : 0 < 2)]
      rw [pow_succ] at h₂
      exact h₂

theorem bit_length_u2 (l : List Char) : bit_length (u2 l) = 2 * l.length + 1 := by
  have hb := u2_bounds l
  have e1 : (4 : Nat) ^ l.length = 2 ^ (2 * l.length) := by
    rw [show (4 : Nat) = 2 ^ 2 from rfl, ← pow_mul]
  have e2 : 2 * (4 : Nat) ^ l.length = 2 ^ (2 * l.length + 1) := by
    rw [e1, pow_succ, Nat.mul_comm]
  exact bit_length_char (u2 l) (by rw [← e1]; exact hb.1) (by rw [← e2]; exact hb.2)

theorem extract_aux_irrel (f₁ : Nat) : ∀ f₂ v, v ≤ f₁ → v ≤ f₂ →
    extract_aux f₁ v = extract_aux f₂ v := by
  induction f₁ with
  | zero =>
    intro f₂ v h₁ _
    interval_cases v
    cases f₂ <;> rfl
  | succ f ih =>
    intro f₂ v h₁ h₂
    cases f₂ with
    | zero =>
      interval_cases v
      rfl
    | succ f' =>
      show (if v = 0 then [] else v % 4 :: extract_aux f (v / 4)) =
        (if v = 0 then [] else v % 4 :: extract_aux f' (v / 4))
      by_cases hv : v = 0
      · simp [hv]
      · have hd : v / 4 < v := Nat.div_lt_self (Nat.pos_of_ne_zero hv) (by omega)
        rw [if_neg hv, if_neg hv, ih f' (v / 4) (by omega) (by omega)]

theorem extract_rec {v : Nat} (h : v ≠ 0) : extract v = v % 4 :: extract (v / 4) := by
  unfold extract
  obtain ⟨m, rfl⟩ : ∃ m, v = m + 1 := ⟨v - 1, by omega⟩
  show (if m + 1 = 0 then [] else (m + 1) % 4 :: extract_aux m ((m + 1) / 4)) = _
  rw [if_neg (Nat.succ_ne_zero m)]
  have hle : (m + 1) / 4 ≤ m := by omega
  rw [extract_aux_irrel m ((m + 1) / 4) ((m + 1) / 4) hle (Nat.le_refl _)]

theorem extract_ne_nil {v : Nat} (h : v ≠ 0) : extract v ≠ [] := by
  rw [extract_rec h]
  exact List.cons_ne_nil _ _

theorem extract_u2 (l : List Char) : extract (u2 l) = l.map tb ++ [1] := by
  induction l with
  | nil => rfl
  | cons c rest ih =>
    have hpos := u2_pos rest
    have ht := tb_lt c
    have hne : u2 (c :: rest) ≠ 0 := by rw [u2_cons]; omega
    rw [extract_rec hne, u2_cons]
    have hmod : (u2 rest * 4 + tb c) % 4 = tb c := by omega
    have hdiv : (u2 rest * 4 + tb c) / 4 = u2 rest := by omega
    rw [hmod, hdiv, ih]
    rfl

theorem map_code_tb (l : List Char) (h : ∀ c ∈ l, (char_twobit c).isSome) :
    (l.map tb).map code_char = l := by
  induction l with
  | nil => rfl
  | cons c rest ih =>
    rw [List.map_cons, List.map_cons, code_tb (h c (List.mem_cons_self c rest)),
      ih (fun x hx => h x (List.mem_cons_of_mem c hx))]

theorem up2bit_decode_u2 (l : List Char) (h : ∀ c ∈ l, (char_twobit c).isSome) :
    up2bit_decode (u2 l) = .ok ⟨l⟩ := by
  have hp : bit_length (u2 l) % 2 = 1 := by rw [bit_length_u2]; omega
  unfold up2bit_decode
  simp only [hp, extract_u2]
  rw [if_neg (by decide : ¬ ((1 : Nat) ≠ 1))]
  rw [List.getLast?_concat, List.dropLast_concat]
  rw [map_code_tb l h]

theorem extract_last : ∀ v, v ≠ 0 → bit_length v % 2 = 1 → (extract v).getLast? = some 1 := by
  intro v
  induction v using Nat.strong_induction_on with
  | _ v ih =>
    intro hv hodd
    by_cases h4 : v < 4
    · interval_cases v
      · exact absurd rfl hv
      · rfl
      · exfalso; revert hodd; decide
      · exfalso; revert hodd; decide
    · have hdiv : v / 4 ≠ 0 := by omega
      have hlt : v / 4 < v := Nat.div_lt_self (by omega) (by omega)
      have hbl : bit_length v = bit_length (v / 4) + 2 := by
        rw [bit_length_rec hv, bit_length_rec (show v / 2 ≠ 0 by omega)]
        rw [Nat.div_div_eq_div_mul]
      have hodd' : bit_length (v / 4) % 2 = 1 := by omega
      rw [extract_rec hv]
      obtain ⟨x, xs, hxx⟩ := List.exists_cons_of_ne_nil (extract_ne_nil hdiv)
      rw [hxx, List.getLast?_cons_cons, ← hxx]
      exact ih (v / 4) hlt hdiv hodd'

/-- C2: for every finite sequence over `{A,C,T,G}`, including the empty
sequence, `up2bit_decode` after `up2bit` is the identity. -/
theorem C2_up2bit_roundtrip (s : String) (h : valid_dna s) :
    ∃ v, up2bit s = .ok v ∧ up2bit_decode v = .ok s :=
  ⟨u2 s.data, up2bit_eq h, up2bit_decode_u2 s.data h⟩

theorem C2_up2bit_roundtrip_witness :
    valid_dna "ACTG" ∧ ∃ v, up2bit "ACTG" = .ok v ∧ up2bit_decode v = .ok "ACTG" :=
  ⟨by unfold valid_dna; decide, C2_up2bit_roundtrip "ACTG" (by unfold valid_dna; decide)⟩

/-- C6: `up2bit_decode` fails with the parity `FormatError` exactly on even
bit-length inputs (in particular on 0), and on every odd bit-length value
the final extracted code is the `01` cap and decoding succeeds. -/
theorem C6_up2bit_decode_errors (v : Nat) :
    (bit_length v % 2 = 0 → up2bit_decode v = .error .formatParity) ∧
    (bit_length v % 2 = 1 → (extract v).getLast? = some 1 ∧
      ∃ s, up2bit_decode v = .ok s) := by
  constructor
  · intro he
    unfold up2bit_decode
    rw [if_pos (by omega)]
  · intro ho
    have hv : v ≠ 0 := by
      intro h0
      subst h0
      revert ho
      decide
    have hlast := extract_last v hv ho
    refine ⟨hlast, ⟨(extract v).dropLast.map code_char⟩, ?_⟩
    unfold up2bit_decode
    rw [if_neg (by omega)]
    show (match (extract v).getLast? with
      | some 1 => Except.ok (⟨(extract v).dropLast.map code_char⟩ : String)
      | _ => Except.error Err.formatCap) = _
    rw [hlast]

theorem C6_witness :
    (bit_length 0 % 2 = 0 ∧ up2bit_decode 0 = .error .formatParity) ∧
    (bit_length 5 % 2 = 1 ∧ (extract 5).getLast? = some 1 ∧
      ∃ s, up2bit_decode 5 = .ok s) :=
  ⟨⟨by decide, (C6_up2bit_decode_errors 0).1 (by decide)⟩,
   by decide, (C6_up2bit_decode_errors 5).2 (by decide)⟩

/-- C7: the up2bit encoding of the empty sequence is 1 (the bare cap) and
the encoding of `ACTG` is 484. -/
theorem C7_up2bit_vectors : up2bit "" = .ok 1 ∧ up2bit "ACTG" = .ok 484 :=
  ⟨rfl, rfl⟩

/-! ### Digit decomposition -/

theorem convert_aux_irrel {base : Nat} (hb : 2 ≤ base) (f₁ : Nat) : ∀ f₂ n, n ≤ f₁ → n ≤ f₂ →
    convert_aux base f₁ n = convert_aux base f₂ n := by
  induction f₁ with
  | zero =>
    intro f₂ n h₁ _
    interval_cases n
    cases f₂ <;> rfl
  | succ f ih =>
    intro f₂ n h₁ h₂
    cases f₂ with
    | zero =>
      interval_cases n
      rfl
    | succ f' =>
      show (if n = 0 then [] else n % base :: convert_aux base f (n / base)) =
        (if n = 0 then [] else n % base :: convert_aux base f' (n / base))
      by_cases hn : n = 0
      · simp [hn]
      · have hd : n / base < n := Nat.div_lt_self (Nat.pos_of_ne_zero hn) (by omega)
        rw [if_neg hn, if_neg hn, ih f' (n / base) (by omega) (by omega)]

theorem convert_zero (base : Nat) : convert_base_x 0 base = [] := rfl

theorem convert_rec {num base : Nat} (hb : 2 ≤ base) (h : num ≠ 0) :
    convert_base_x num base = num % base :: convert_base_x (num / base) base := by
  unfold convert_base_x
  obtain ⟨m, rfl⟩ : ∃ m, num = m + 1 := ⟨num - 1, by omega⟩
  show (if m + 1 = 0 then [] else (m + 1) % base :: convert_aux base m ((m + 1) / base)) = _
  rw [if_neg (Nat.succ_ne_zero m)]
  have hle : (m + 1) / base ≤ m := by
    have hlt : (m + 1) / base < m + 1 := Nat.div_lt_self (by omega) (by omega)
    omega
  rw [convert_aux_irrel hb m ((m + 1) / base) ((m + 1) / base) hle (Nat.le_refl _)]

theorem from_digits_nil (base : Nat) : from_digits [] base = 0 := rfl

theorem from_digits_cons (d : Nat) (l : List Nat) (base : Nat) :
    from_digits (d :: l) base = d + base * from_digits l base := rfl

theorem from_digits_convert {base : Nat} (hb : 2 ≤ base) :
    ∀ n, from_digits (convert_base_x n base) base = n := by
  intro n
  induction n using Nat.strong_induction_on with
  | _ n ih =>
    by_cases hn : n = 0
    · subst hn; rfl
    · have hd : n / base < n := Nat.div_lt_self (Nat.pos_of_ne_zero hn) (by omega)
      rw [convert_rec hb hn, from_digits_cons, ih (n / base) hd]
      exact Nat.mod_add_div n base

theorem convert_lt {base : Nat} (hb : 2 ≤ base) :
    ∀ n, ∀ d ∈ convert_base_x n base, d < base := by
  intro n
  induction n using Nat.strong_induction_on with
  | _ n ih =>
    intro d hd
    by_cases hn : n = 0
    · subst hn; simp [convert_zero] at hd
    · have hlt : n / base < n := Nat.div_lt_self (Nat.pos_of_ne_zero hn) (by omega)
      rw [convert_rec hb hn] at hd
      rcases List.mem_cons.1 hd with h | h
      · subst h; exact Nat.mod_lt n (by omega)
      · exact ih (n / base) hlt d h

theorem convert_length_le {base : Nat} (hb : 2 ≤ base) :
    ∀ k n, n < base ^ k → (convert_base_x n base).length ≤ k := by
  intro k
  induction k with
  | zero =>
    intro n h
    rw [pow_zero] at h
    have hn : n = 0 := by omega
    subst hn
    exact Nat.le_refl 0
  | succ k ih =>
    intro n h
    by_cases hn : n = 0
    · subst hn; exact Nat.zero_le _
    · rw [convert_rec hb hn, List.length_cons]
      have : n / base < base ^ k := by
        rw [Nat.div_lt_iff_lt_mul (by omega : 0 < base)]
        rw [pow_succ] at h
        exact h
      exact Nat.succ_le_succ (ih (n / base) this)

theorem from_digits_append (l₁ l₂ : List Nat) (base : Nat) :
    from_digits (l₁ ++ l₂) base =
      from_digits l₁ base + base ^ l₁.length * from_digits l₂ base := by
  induction l₁ with
  | nil => simp [from_digits_nil]
  | cons d rest ih =>
    rw [List.cons_append, from_digits_cons, from_digits_cons, ih,
      List.length_cons, pow_succ]
    ring

theorem from_digits_replicate_zero (n base : Nat) :
    from_digits (List.replicate n 0) base = 0 := by
  induction n with
  | zero => rfl
  | succ m ih =>
    rw [List.replicate_succ, from_digits_cons, ih]
    simp

theorem from_digits_lt {base : Nat} (l : List Nat) (h : ∀ d ∈ l, d < base) :
    from_digits l base < base ^ l.length := by
  induction l with
  | nil => exact Nat.zero_lt_one
  | cons d rest ih =>
    rw [from_digits_cons, List.length_cons, pow_succ]
    have h1 : d < base := h d (List.mem_cons_self d rest)
    have h2 : from_digits rest base < base ^ rest.length :=
      ih (fun x hx => h x (List.mem_cons_of_mem d hx))
    calc d + base * from_digits rest base
        < base * (from_digits rest base + 1) := by
          rw [Nat.mul_add, Nat.mul_one]
          omega
      _ ≤ base * base ^ rest.length := Nat.mul_le_mul_left base (Nat.succ_le_of_lt h2)
      _ = base ^ rest.length * base := Nat.mul_comm _ _

theorem chunk_aux_irrel {k : Nat} (hk : 1 ≤ k) (f₁ : Nat) : ∀ f₂ (l : List Nat), l.length ≤ f₁ → l.length ≤ f₂ →
    chunk_aux k f₁ l = chunk_aux k f₂ l := by
  induction f₁ with
  | zero =>
    intro f₂ l h₁ _
    have hl : l = [] := List.eq_nil_of_length_eq_zero (by omega)
    subst hl
    cases f₂ <;> rfl
  | succ f ih =>
    intro f₂ l h₁ h₂
    cases f₂ with
    | zero =>
      have hl : l = [] := List.eq_nil_of_length_eq_zero (by omega)
      subst hl
      rfl
    | succ f' =>
      show (if l.isEmpty then [] else l.take k :: chunk_aux k f (l.drop k)) =
        (if l.isEmpty then [] else l.take k :: chunk_aux k f' (l.drop k))
      by_cases hl : l.isEmpty
      · simp [hl]
      · have hne : l ≠ [] := fun h => hl (by simp [h])
        have hpos : 1 ≤ l.length := List.length_pos.2 hne
        have hlen : (l.drop k).length = l.length - k := List.length_drop k l
        rw [if_neg hl, if_neg hl, ih f' (l.drop k) (by omega) (by omega)]

theorem chunk_rec {k : Nat} (hk : 1 ≤ k) {l : List Nat} (h : l ≠ []) :
    chunk k l = l.take k :: chunk k (l.drop k) := by
  unfold chunk
  cases l with
  | nil => exact absurd rfl h
  | cons x xs =>
    show (if (x :: xs).isEmpty then [] else
      (x :: xs).take k :: chunk_aux k xs.length ((x :: xs).drop k)) = _
    rw [if_neg (by simp)]
    have hlen : ((x :: xs).drop k).length = xs.length + 1 - k := by
      rw [List.length_drop]
      simp
    rw [chunk_aux_irrel hk xs.length (((x :: xs).drop k).length) ((x :: xs).drop k)
      (by omega) (Nat.le_refl _)]

theorem chunk_props {k : Nat} (hk : 1 ≤ k) : ∀ n (l : List Nat), l.length = n → k ∣ n →
    (∀ blk ∈ chunk k l, blk.length = k) ∧ (chunk k l).flatten = l := by
  intro n
  induction n using Nat.strong_induction_on with
  | _ n ih =>
    intro l hlen hdvd
    by_cases hl : l = []
    · subst hl
      have hc : chunk k ([] : List Nat) = [] := rfl
      constructor
      · intro blk hb
        rw [hc] at hb
        exact absurd hb (List.not_mem_nil blk)
      · rw [hc]
        rfl
    · have hpos : 1 ≤ l.length := List.length_pos.2 hl
      have hkle : k ≤ n := Nat.le_of_dvd (by omega) hdvd
      rw [chunk_rec hk hl]
      have htake : (l.take k).length = k := by rw [List.length_take]; omega
      have hdroplen : (l.drop k).length = l.length - k := List.length_drop k l
      have hdvd' : k ∣ (n - k) := Nat.dvd_sub' hdvd (Nat.dvd_refl k)
      have hlt : n - k < n := by omega
      obtain ⟨h1, h2⟩ := ih (n - k) hlt (l.drop k) (by omega) hdvd'
      constructor
      · intro blk hb
        rcases List.mem_cons.1 hb with h | h
        · subst h; exact htake
        · exact h1 blk h
      · rw [List.flatten_cons, h2, List.take_append_drop]

theorem from_digits_flatten {base k : Nat} :
    ∀ blocks : List (List Nat), (∀ blk ∈ blocks, blk.length = k) →
    from_digits blocks.flatten base =
      from_digits (blocks.map (fun blk => from_digits blk base)) (base ^ k) := by
  intro blocks
  induction blocks with
  | nil => intro _; rfl
  | cons blk rest ih =>
    intro h
    rw [List.flatten_cons, from_digits_append, h blk (List.mem_cons_self blk rest),
      List.map_cons, from_digits_cons, ih (fun b hb => h b (List.mem_cons_of_mem blk hb))]

theorem ilog_aux_irrel {base : Nat} (hb : 2 ≤ base) (f₁ : Nat) : ∀ f₂ n, n ≤ f₁ → n ≤ f₂ →
    ilog_aux base f₁ n = ilog_aux base f₂ n := by
  induction f₁ with
  | zero =>
    intro f₂ n h₁ _
    interval_cases n
    cases f₂ with
    | zero => rfl
    | succ f' =>
      show 0 = if 0 < base then 0 else ilog_aux base f' (0 / base) + 1
      rw [if_pos (by omega)]
  | succ f ih =>
    intro f₂ n h₁ h₂
    cases f₂ with
    | zero =>
      interval_cases n
      show (if 0 < base then 0 else ilog_aux base f (0 / base) + 1) = 0
      rw [if_pos (by omega)]
    | succ f' =>
      show (if n < base then 0 else ilog_aux base f (n / base) + 1) =
        (if n < base then 0 else ilog_aux base f' (n / base) + 1)
      by_cases hn : n < base
      · rw [if_pos hn, if_pos hn]
      · have hd : n / base < n := Nat.div_lt_self (by omega) (by omega)
        rw [if_neg hn, if_neg hn, ih f' (n / base) (by omega) (by omega)]

theorem ilog_small {base n : Nat} (_hb : 2 ≤ base) (h : n < base) : ilog base n = 0 := by
  unfold ilog
  cases n with
  | zero => rfl
  | succ m =>
    show (if m + 1 < base then 0 else ilog_aux base m ((m + 1) / base) + 1) = 0
    rw [if_pos h]

theorem ilog_rec {base n : Nat} (hb : 2 ≤ base) (h : base ≤ n) :
    ilog base n = ilog base (n / base) + 1 := by
  unfold ilog
  obtain ⟨m, rfl⟩ : ∃ m, n = m + 1 := ⟨n - 1, by omega⟩
  show (if m + 1 < base then 0 else ilog_aux base m ((m + 1) / base) + 1) = _
  rw [if_neg (by omega)]
  have hlt : (m + 1) / base < m + 1 := Nat.div_lt_self (by omega) (by omega)
  rw [ilog_aux_irrel hb m ((m + 1) / base) ((m + 1) / base) (by omega) (Nat.le_refl _)]

theorem ilog_pow {base : Nat} (hb : 2 ≤ base) : ∀ j, ilog base (base ^ j) = j := by
  intro j
  induction j with
  | zero => exact ilog_small hb (by simpa using hb)
  | succ j ih =>
    have hge : base ≤ base ^ (j + 1) := by
      calc base = base ^ 1 := (pow_one base).symm
        _ ≤ base ^ (j + 1) := Nat.pow_le_pow_right (by omega) (by omega)
    rw [ilog_rec hb hge, pow_succ, Nat.mul_div_cancel _ (by omega : 0 < base), ih]

theorem bin_chunks_aux_eq {k : Nat} : ∀ f v, bin_chunks_aux k f v = convert_aux (2 ^ k) f v := by
  intro f
  induction f with
  | zero => intro v; rfl
  | succ f ih =>
    intro v
    show (if v = 0 then [] else v % 2 ^ k :: bin_chunks_aux k f (v / 2 ^ k)) =
      (if v = 0 then [] else v % 2 ^ k :: convert_aux (2 ^ k) f (v / 2 ^ k))
    by_cases hv : v = 0
    · simp [hv]
    · rw [if_neg hv, if_neg hv, ih]

theorem bin_chunks_eq (k v : Nat) : bin_chunks k v = convert_base_x v (2 ^ k) :=
  bin_chunks_aux_eq v v

theorem is_full_base_x_iff {n base : Nat} (hb : 2 ≤ base) :
    is_full_base_x n base = true ↔ ∃ k, base ^ k = n := by
  unfold is_full_base_x
  rw [List.any_eq_true]
  constructor
  · rintro ⟨k, _, he⟩
    exact ⟨k, by simpa using he⟩
  · rintro ⟨k, hk⟩
    refine ⟨k, List.mem_range.2 ?_, by simp [hk]⟩
    have : k < base ^ k := Nat.lt_pow_self hb k
    omega

/-! ### ASCII case mapping -/

theorem toNat_ofNat_small {n : Nat} (h : n < 55296) : (Char.ofNat n).toNat = n := by
  unfold Char.ofNat
  rw [dif_pos (Or.inl h : Nat.isValidChar n)]
  rfl

theorem char_eq_of_toNat {a b : Char} (h : a.toNat = b.toNat) : a = b := by
  rw [← Char.ofNat_toNat a, ← Char.ofNat_toNat b, h]

theorem char_lower_toNat (c : Char) : (char_lower c).toNat =
    if 65 ≤ c.toNat ∧ c.toNat ≤ 90 then c.toNat + 32 else c.toNat := by
  unfold char_lower
  by_cases h : 65 ≤ c.toNat ∧ c.toNat ≤ 90
  · rw [if_pos h, if_pos h, toNat_ofNat_small (by omega)]
  · rw [if_neg h, if_neg h]

theorem char_upper_toNat (c : Char) : (char_upper c).toNat =
    if 97 ≤ c.toNat ∧ c.toNat ≤ 122 then c.toNat - 32 else c.toNat := by
  unfold char_upper
  by_cases h : 97 ≤ c.toNat ∧ c.toNat ≤ 122
  · rw [if_pos h, if_pos h, toNat_ofNat_small (by omega)]
  · rw [if_neg h, if_neg h]

theorem char_lower_lower (c : Char) : char_lower (char_lower c) = char_lower c := by
  apply char_eq_of_toNat
  rw [char_lower_toNat, char_lower_toNat]
  split_ifs <;> omega

theorem char_lower_upper (c : Char) : char_lower (char_upper c) = char_lower c := by
  apply char_eq_of_toNat
  rw [char_lower_toNat, char_lower_toNat, char_upper_toNat]
  split_ifs <;> omega

theorem map_lower_title_go : ∀ (l : List Char) (up : Bool),
    (title_go up l).map char_lower = l.map char_lower := by
  intro l
  induction l with
  | nil => intro up; rfl
  | cons c rest ih =>
    intro up
    unfold title_go
    by_cases ha : ascii_alpha c
    · rw [if_pos ha]
      cases up with
      | true =>
        rw [List.map_cons, List.map_cons, if_pos rfl, char_lower_upper, ih]
      | false =>
        rw [List.map_cons, List.map_cons, if_neg (by simp), char_lower_lower, ih]
    · rw [if_neg ha, List.map_cons, List.map_cons, ih]

theorem py_lower_title (s : String) : py_lower (py_title s) = py_lower s :=
  congrArg String.mk (map_lower_title_go s.data true)

theorem map_lower_lower (l : List Char) :
    (l.map char_lower).map char_lower = l.map char_lower := by
  induction l with
  | nil => rfl
  | cons c rest ih =>
    rw [List.map_cons, List.map_cons, char_lower_lower, ih]

theorem py_lower_idem (s : String) : py_lower (py_lower s) = py_lower s :=
  congrArg String.mk (map_lower_lower s.data)

theorem py_lower_title_fixed {w : String} (h : py_lower w = w) :
    py_lower (py_title w) = w := by rw [py_lower_title, h]

/-! ### The inverse word list as a Python dict -/

theorem dict_insert_fresh {d : List (String × Nat)} {k : String} (v : Nat)
    (h : ∀ q ∈ d, q.1 ≠ k) : dict_insert d k v = d ++ [(k, v)] := by
  unfold dict_insert
  rw [if_neg]
  simp only [List.any_eq_true, beq_iff_eq, not_exists, not_and]
  intro q hq
  exact h q hq

theorem foldl_insert_fresh :
    ∀ (pairs : List (Nat × String)) (d : List (String × Nat)),
    (pairs.map (fun p => p.2)).Nodup →
    (∀ p ∈ pairs, ∀ q ∈ d, q.1 ≠ p.2) →
    pairs.foldl (fun d p => dict_insert d p.2 p.1) d =
      d ++ pairs.map (fun p => (p.2, p.1)) := by
  intro pairs
  induction pairs with
  | nil =>
    intro d _ _
    simp
  | cons p rest ih =>
    intro d hnd hdisj
    rw [List.map_cons, List.nodup_cons] at hnd
    rw [List.foldl_cons,
      dict_insert_fresh p.1 (fun q hq => hdisj p (List.mem_cons_self p rest) q hq)]
    rw [ih (d ++ [(p.2, p.1)]) hnd.2 ?_]
    · rw [List.map_cons, List.append_assoc]
      rfl
    · intro r hr q hq
      rcases List.mem_append.1 hq with h | h
      · exact hdisj r (List.mem_cons_of_mem p hr) q h
      · rcases List.mem_singleton.1 h with rfl
        intro he
        apply hnd.1
        rw [show p.2 = r.2 from he]
        exact List.mem_map_of_mem (fun p => p.2) hr

theorem generate_inverse_eq {wl : List String} (hnd : wl.Nodup) :
    generate_inverse_wordlist wl = wl.enum.map (fun p => (p.2, p.1)) := by
  unfold generate_inverse_wordlist
  have hmap : wl.enum.map (fun p => p.2) = wl := List.enum_map_snd wl
  rw [foldl_insert_fresh wl.enum [] (by rw [hmap]; exact hnd) (by intro p _ q hq; simp at hq)]
  rfl

theorem inverse_length {wl : List String} (hnd : wl.Nodup) :
    (generate_inverse_wordlist wl).length = wl.length := by
  rw [generate_inverse_eq hnd, List.length_map, List.enum_length]

theorem find_enumFrom (l : List String) : ∀ (n j : Nat) (hj : j < l.length), l.Nodup →
    ((List.enumFrom n l).map (fun p => (p.2, p.1))).find? (fun q => q.1 == l.get ⟨j, hj⟩) =
      some (l.get ⟨j, hj⟩, n + j) := by
  induction l with
  | nil =>
    intro n j hj _
    exact absurd hj (by simp)
  | cons x xs ih =>
    intro n j hj hnd
    rw [List.enumFrom_cons, List.map_cons]
    cases j with
    | zero =>
      rw [List.find?_cons_of_pos _ (by simp [List.get])]
      simp [List.get]
    | succ j =>
      have hget : (x :: xs).get ⟨j + 1, hj⟩ = xs.get ⟨j, by simpa using hj⟩ := rfl
      have hx : x ≠ xs.get ⟨j, by simpa using hj⟩ := by
        intro he
        apply (List.nodup_cons.1 hnd).1
        rw [he]
        exact List.get_mem xs j (by simpa using hj)
      have hne : ¬ (((x, n).1 == (x :: xs).get ⟨j + 1, hj⟩) = true) := by
        simp only [beq_iff_eq, hget]
        exact hx
      show List.find? (fun q => q.1 == (x :: xs).get ⟨j + 1, hj⟩)
        ((x, n) :: (List.enumFrom (n + 1) xs).map (fun p => (p.2, p.1))) = _
      rw [@List.find?_cons_of_neg _ (fun q => q.1 == (x :: xs).get ⟨j + 1, hj⟩)
        (x, n) _ hne]
      rw [hget, ih (n + 1) j (by simpa using hj) (List.nodup_cons.1 hnd).2]
      have : n + 1 + j = n + (j + 1) := by omega
      rw [this]

theorem dict_get_word {wl : List String} (hnd : wl.Nodup) (j : Nat) (hj : j < wl.length) :
    dict_get (generate_inverse_wordlist wl) (wl.get ⟨j, hj⟩) = some j := by
  rw [generate_inverse_eq hnd]
  unfold dict_get
  rw [show wl.enum = List.enumFrom 0 wl from rfl, find_enumFrom wl 0 j hj hnd]
  simp

theorem inverse_mem {wl : List String} (hnd : wl.Nodup) {w : String} {v : Nat}
    (h : (w, v) ∈ generate_inverse_wordlist wl) :
    ∃ hv : v < wl.length, wl.get ⟨v, hv⟩ = w := by
  rw [generate_inverse_eq hnd] at h
  obtain ⟨p, hp, he⟩ := List.mem_map.1 h
  obtain ⟨h1, h2⟩ := Prod.mk.injEq _ _ _ _ ▸ he
  have hmem : (p.1, p.2) ∈ wl.enum := by
    cases p
    exact hp
  rw [List.mk_mem_enum_iff_getElem?] at hmem
  have hv : p.1 < wl.length := by
    by_contra hge
    rw [List.getElem?_eq_none (by omega)] at hmem
    exact Option.noConfusion hmem
  refine ⟨h2 ▸ hv, ?_⟩
  rw [List.getElem?_eq_getElem hv] at hmem
  have := Option.some.injEq _ _ ▸ hmem
  subst h1
  subst h2
  simp only [List.get_eq_getElem]
  exact Option.some_injective _ hmem

/-! ### Loading word lists -/

theorem pad_getD (wl : List (Option String)) (m j : Nat) :
    (wl ++ List.replicate m (none : Option String)).getD j none = wl.getD j none := by
  rw [List.getD_eq_getElem?_getD, List.getD_eq_getElem?_getD]
  by_cases h : j < wl.length
  · rw [List.getElem?_append_left h]
  · rw [List.getElem?_append_right (by omega), List.getElem?_replicate,
      List.getElem?_eq_none (show wl.length ≤ j by omega)]
    split <;> rfl

theorem store_err {wl : List (Option String)} {idx : Nat} (w : String)
    (h : (wl.getD idx none).isSome = true) :
    store wl idx w = .error (.dupIndex idx) := by
  unfold store
  rw [if_pos (by rw [pad_getD]; exact h)]

theorem store_ok {wl : List (Option String)} {idx : Nat} (w : String)
    (h : (wl.getD idx none).isSome = false) :
    store wl idx w =
      .ok ((wl ++ List.replicate (idx + 1 - wl.length) none).set idx (some (py_lower w))) := by
  unfold store
  have hc : ((wl ++ List.replicate (idx + 1 - wl.length) none).getD idx none).isSome = false := by
    rw [pad_getD]
    exact h
  rw [if_neg (by rw [hc]; decide)]

theorem store_ok_length {wl : List (Option String)} {idx : Nat} {w : String} :
    ((wl ++ List.replicate (idx + 1 - wl.length) none).set idx (some (py_lower w))).length =
      max wl.length (idx + 1) := by
  rw [List.length_set, List.length_append, List.length_replicate]
  omega

theorem store_ok_getD_self {wl : List (Option String)} {idx : Nat} {w : String} :
    ((wl ++ List.replicate (idx + 1 - wl.length) none).set idx (some (py_lower w))).getD idx none =
      some (py_lower w) := by
  rw [List.getD_eq_getElem?_getD, List.getElem?_set_self (by rw [List.length_append, List.length_replicate]; omega)]
  rfl

theorem store_ok_getD_ne {wl : List (Option String)} {idx : Nat} {w : String} {j : Nat}
    (h : j ≠ idx) :
    ((wl ++ List.replicate (idx + 1 - wl.length) none).set idx (some (py_lower w))).getD j none =
      wl.getD j none := by
  rw [List.getD_eq_getElem?_getD, List.getElem?_set_ne (fun he => h he.symm),
    ← List.getD_eq_getElem?_getD, pad_getD]

theorem storeFold_nil (acc : List (Option String)) : storeFold acc [] = .ok acc := rfl

theorem storeFold_cons (acc : List (Option String)) (p : Nat × String)
    (rest : List (Nat × String)) :
    storeFold acc (p :: rest) =
      match store acc p.1 p.2 with
      | .ok acc' => storeFold acc' rest
      | .error e => .error e := rfl

theorem storeFold_total : ∀ (ps : List (Nat × String)) acc,
    (∃ wl', storeFold acc ps = .ok wl') ∨ (∃ i, storeFold acc ps = .error (.dupIndex i)) := by
  intro ps
  induction ps with
  | nil => intro acc; exact Or.inl ⟨acc, rfl⟩
  | cons p rest ih =>
    intro acc
    cases hf : (acc.getD p.1 none).isSome with
    | false =>
      have hs := store_ok p.2 hf
      rcases ih ((acc ++ List.replicate (p.1 + 1 - acc.length) none).set p.1
          (some (py_lower p.2))) with ⟨wl', hw⟩ | ⟨i, hw⟩
      · left
        exact ⟨wl', by rw [storeFold_cons, hs]; exact hw⟩
      · right
        exact ⟨i, by rw [storeFold_cons, hs]; exact hw⟩
    | true =>
      right
      exact ⟨p.1, by rw [storeFold_cons, store_err p.2 hf]⟩

theorem storeFold_ok_char : ∀ (ps : List (Nat × String)) acc wl',
    storeFold acc ps = .ok wl' →
    (ps.map (fun p => p.1)).Nodup ∧
    (∀ p ∈ ps, (acc.getD p.1 none).isSome = false) ∧
    (∀ j, (wl'.getD j none).isSome = true ↔
      ((acc.getD j none).isSome = true ∨ j ∈ ps.map (fun p => p.1))) ∧
    (∀ j, j < wl'.length ↔ (j < acc.length ∨ ∃ p ∈ ps, j ≤ p.1)) := by
  intro ps
  induction ps with
  | nil =>
    intro acc wl' h
    rw [storeFold_nil] at h
    cases h
    refine ⟨List.nodup_nil, by simp, fun j => by simp, fun j => by simp⟩
  | cons p rest ih =>
    intro acc wl' h
    rw [storeFold_cons] at h
    cases hf : (acc.getD p.1 none).isSome with
    | true =>
      rw [store_err p.2 hf] at h
      exact Except.noConfusion h
    | false =>
      rw [store_ok p.2 hf] at h
      replace h : storeFold ((acc ++ List.replicate (p.1 + 1 - acc.length) none).set p.1
        (some (py_lower p.2))) rest = .ok wl' := h
      obtain ⟨hnd, hfresh, hchar, hlen⟩ := ih _ wl' h
      refine ⟨?_, ?_, ?_, ?_⟩
      · rw [List.map_cons, List.nodup_cons]
        refine ⟨?_, hnd⟩
        intro hmem
        obtain ⟨q, hq, he⟩ := List.mem_map.1 hmem
        have hq2 := hfresh q hq
        rw [he, store_ok_getD_self] at hq2
        exact Bool.noConfusion hq2
      · intro q hq
        rcases List.mem_cons.1 hq with he | hq'
        · rw [he]
          exact hf
        · have hq2 := hfresh q hq'
          by_cases hje : q.1 = p.1
          · rw [hje]
            exact hf
          · rw [store_ok_getD_ne hje] at hq2
            exact hq2
      · intro j
        rw [hchar j]
        by_cases hj : j = p.1
        · subst hj
          rw [store_ok_getD_self]
          simp [hf, List.mem_cons]
        · rw [store_ok_getD_ne hj]
          simp [List.mem_cons, hj]
      · intro j
        rw [hlen j, store_ok_length]
        simp only [List.mem_cons]
        constructor
        · rintro (hm | ⟨q, hq, hle⟩)
          · rcases Nat.lt_or_ge j acc.length with h1 | h1
            · exact Or.inl h1
            · right
              exact ⟨p, Or.inl rfl, by omega⟩
          · right
            exact ⟨q, Or.inr hq, hle⟩
        · rintro (hm | ⟨q, hqm, hle⟩)
          · left
            omega
          · rcases hqm with rfl | hq'
            · left
              omega
            · right
              exact ⟨q, hq', hle⟩

theorem storeFold_ok_exists : ∀ (ps : List (Nat × String)) acc,
    (ps.map (fun p => p.1)).Nodup →
    (∀ p ∈ ps, (acc.getD p.1 none).isSome = false) →
    ∃ wl', storeFold acc ps = .ok wl' := by
  intro ps
  induction ps with
  | nil =>
    intro acc _ _
    exact ⟨acc, rfl⟩
  | cons p rest ih =>
    intro acc hnd hfresh
    rw [List.map_cons, List.nodup_cons] at hnd
    have hf := hfresh p (List.mem_cons_self p rest)
    have hfresh2 : ∀ q ∈ rest,
        (((acc ++ List.replicate (p.1 + 1 - acc.length) none).set p.1
          (some (py_lower p.2))).getD q.1 none).isSome = false := by
      intro q hq
      by_cases hje : q.1 = p.1
      · exfalso
        apply hnd.1
        rw [← hje]
        exact List.mem_map_of_mem (fun p => p.1) hq
      · rw [store_ok_getD_ne hje]
        exact hfresh q (List.mem_cons_of_mem p hq)
    obtain ⟨wl', hw⟩ := ih ((acc ++ List.replicate (p.1 + 1 - acc.length) none).set p.1
      (some (py_lower p.2))) hnd.2 hfresh2
    exact ⟨wl', by rw [storeFold_cons, store_ok p.2 hf]; exact hw⟩

theorem parses_nil (pos : Nat) : parses pos [] = some [] := rfl

theorem parses_cons (pos : Nat) (line : String) (rest : List String) :
    parses pos (line :: rest) =
      match parse_line pos line with
      | .ok p => (parses (pos + 1) rest).map (fun ps => p :: ps)
      | .error _ => none := rfl

theorem read_loop_eq : ∀ (lines : List String) pos acc ps, parses pos lines = some ps →
    read_loop pos lines acc = storeFold acc ps := by
  intro lines
  induction lines with
  | nil =>
    intro pos acc ps h
    rw [parses_nil] at h
    cases h
    rfl
  | cons line rest ih =>
    intro pos acc ps h
    rw [parses_cons] at h
    cases hp : parse_line pos line with
    | error e =>
      rw [hp] at h
      exact Option.noConfusion h
    | ok p =>
      obtain ⟨idx, w⟩ := p
      rw [hp] at h
      cases hps : parses (pos + 1) rest with
      | none =>
        rw [hps] at h
        exact Option.noConfusion h
      | some ps' =>
        rw [hps] at h
        have hh : (idx, w) :: ps' = ps := by
          injection h
        subst hh
        show (match parse_line pos line with
          | .ok (idx, w) =>
            match store acc idx w with
            | .ok wl' => read_loop (pos + 1) rest wl'
            | .error e => .error e
          | .error e => .error e) = _
        rw [hp, storeFold_cons]
        show (match store acc idx w with
          | Except.ok wl' => read_loop (pos + 1) rest wl'
          | Except.error e => Except.error e) =
          (match store acc idx w with
          | Except.ok acc' => storeFold acc' ps'
          | Except.error e => Except.error e)
        cases hs : store acc idx w with
        | ok acc' => exact ih (pos + 1) acc' ps' hps
        | error e => rfl

theorem first_none_aux_none : ∀ (wl : List (Option String)) (i : Nat),
    first_none_aux i wl = none ↔ ∀ os ∈ wl, os.isSome := by
  intro wl
  induction wl with
  | nil => intro i; simp [first_none_aux]
  | cons os rest ih =>
    intro i
    cases os with
    | none => simp [first_none_aux]
    | some w =>
      rw [show first_none_aux i (some w :: rest) = first_none_aux (i + 1) rest from rfl]
      rw [ih (i + 1)]
      constructor
      · intro h x hx
        rcases List.mem_cons.1 hx with rfl | hx'
        · rfl
        · exact h x hx'
      · intro h x hx
        exact h x (List.mem_cons_of_mem _ hx)

theorem first_none_eq_none {wl : List (Option String)}
    (h : ∀ j, j < wl.length → (wl.getD j none).isSome = true) :
    first_none wl = none := by
  rw [first_none, first_none_aux_none]
  intro os hos
  obtain ⟨i, hi, he⟩ := List.mem_iff_getElem.1 hos
  have := h i hi
  rw [List.getD_eq_getElem?_getD, List.getElem?_eq_getElem hi, he] at this
  exact this

theorem first_none_ne_none {wl : List (Option String)} {j : Nat}
    (hj : j < wl.length) (h : (wl.getD j none).isSome = false) :
    ∃ i, first_none wl = some i := by
  cases hf : first_none wl with
  | some i => exact ⟨i, rfl⟩
  | none =>
    exfalso
    rw [first_none, first_none_aux_none] at hf
    rw [List.getD_eq_getElem?_getD, List.getElem?_eq_getElem hj] at h
    have := hf (wl.get ⟨j, hj⟩) (List.get_mem wl j hj)
    rw [List.get_eq_getElem] at this
    rw [show (some wl[j]).getD none = wl[j] from rfl] at h
    rw [this] at h
    exact Bool.noConfusion h

theorem store_ok_inv {wl : List (Option String)} {idx : Nat} {w : String}
    {wl' : List (Option String)} (h : store wl idx w = .ok wl') :
    wl' = (wl ++ List.replicate (idx + 1 - wl.length) none).set idx (some (py_lower w)) := by
  unfold store at h
  split at h
  · exact Except.noConfusion h
  · injection h with h
    exact h.symm

theorem read_loop_cons (pos : Nat) (line : String) (rest : List String)
    (acc : List (Option String)) :
    read_loop pos (line :: rest) acc =
      match parse_line pos line with
      | .ok (idx, w) =>
        match store acc idx w with
        | .ok wl' => read_loop (pos + 1) rest wl'
        | .error e => .error e
      | .error e => .error e := rfl

theorem read_loop_lower : ∀ (lines : List String) pos acc wl',
    (∀ os ∈ acc, ∀ w, os = some w → py_lower w = w) →
    read_loop pos lines acc = .ok wl' →
    ∀ os ∈ wl', ∀ w, os = some w → py_lower w = w := by
  intro lines
  induction lines with
  | nil =>
    intro pos acc wl' hinv h
    cases h
    exact hinv
  | cons line rest ih =>
    intro pos acc wl' hinv h
    rw [read_loop_cons] at h
    split at h
    · split at h
      · next idx w heq1 wl2 heq2 =>
        refine ih (pos + 1) _ wl' ?_ h
        rw [store_ok_inv heq2]
        intro os hos w' hw
        rcases List.mem_or_eq_of_mem_set hos with hos' | hos'
        · rcases List.mem_append.1 hos' with hos'' | hos''
          · exact hinv os hos'' w' hw
          · rw [List.eq_of_mem_replicate hos''] at hw
            exact Option.noConfusion hw
        · rw [hos'] at hw
          injection hw with hw
          rw [← hw]
          exact py_lower_idem _
      · exact Except.noConfusion h
    · exact Except.noConfusion h

theorem read_ok_lower {lines : List String} {wl : List String}
    (h : read_wordlist lines = .ok wl) : ∀ w ∈ wl, py_lower w = w := by
  unfold read_wordlist at h
  split at h
  · exact Except.noConfusion h
  · next wl' heq =>
    split at h
    · exact Except.noConfusion h
    · split at h
      · exact Except.noConfusion h
      · split at h
        · exact Except.noConfusion h
        · injection h with h
          subst h
          intro w hw
          have hsome := List.reduceOption_mem_iff.1 hw
          exact read_loop_lower lines 0 [] wl' (by intro os hos; simp at hos) heq
            (some w) hsome w rfl

theorem read_ok_size {lines : List String} {wl : List String}
    (h : read_wordlist lines = .ok wl) :
    1 ≤ wl.length ∧
      (is_full_base_x wl.length 2 = true ∨ is_full_base_x wl.length 6 = true) := by
  unfold read_wordlist at h
  split at h
  · exact Except.noConfusion h
  · split at h
    · exact Except.noConfusion h
    · split at h
      · exact Except.noConfusion h
      · split at h
        · exact Except.noConfusion h
        · next h0 hfb =>
          injection h with h
          subst h
          refine ⟨by omega, ?_⟩
          by_contra hc
          push_neg at hc
          exact hfb ⟨by simp [hc.1], by simp [hc.2]⟩

theorem read_wordlist_of_storeFold {lines : List String} {ps : List (Nat × String)}
    (hp : parses 0 lines = some ps) :
    read_wordlist lines =
      match storeFold [] ps with
      | .error e => .error e
      | .ok wl =>
        match first_none wl with
        | some i => .error (.missingIndex i)
        | none =>
          if wl.reduceOption.length = 0 then .error .mathDomain
          else if ¬ is_full_base_x wl.reduceOption.length 2 ∧
            ¬ is_full_base_x wl.reduceOption.length 6
          then .error (.invalidSize wl.reduceOption.length)
          else .ok wl.reduceOption := by
  unfold read_wordlist
  rw [read_loop_eq lines 0 [] ps hp]

theorem empty_getD_not_some : ∀ (p : Nat × String),
    ((([] : List (Option String)).getD p.1 none).isSome) = false := fun _ => rfl

/-- C5 helper: the first unfilled slot below an assigned index. -/
theorem C5_missing_core {ps : List (Nat × String)} {wl' : List (Option String)}
    (hw : storeFold [] ps = .ok wl')
    (hgap : ∃ i ∈ ps.map (fun p => p.1), ∃ j, j < i ∧ j ∉ ps.map (fun p => p.1)) :
    ∃ j, first_none wl' = some j := by
  obtain ⟨hnd, _, hchar, hlen⟩ := storeFold_ok_char ps [] wl' hw
  obtain ⟨i, hi, j, hji, hnot⟩ := hgap
  obtain ⟨p, hp, hpi⟩ := List.mem_map.1 hi
  have hjlen : j < wl'.length := by
    rw [hlen j]
    right
    exact ⟨p, hp, by omega⟩
  have hjfill : (wl'.getD j none).isSome = false := by
    cases hb : (wl'.getD j none).isSome with
    | false => rfl
    | true =>
      rcases (hchar j).1 hb with hl | hr
      · exact Bool.noConfusion hl
      · exact absurd hr hnot
  exact first_none_ne_none hjlen hjfill

theorem C5_invalid_core {lines : List String} {ps : List (Nat × String)}
    (hp : parses 0 lines = some ps)
    (hnd : (ps.map (fun p => p.1)).Nodup)
    (hin : ∀ i ∈ ps.map (fun p => p.1), i < ps.length)
    (hout : ∀ j, j < ps.length → j ∈ ps.map (fun p => p.1))
    (hne : ps ≠ [])
    (hf2 : is_full_base_x ps.length 2 = false)
    (hf6 : is_full_base_x ps.length 6 = false) :
    read_wordlist lines = .error (.invalidSize ps.length) := by
  obtain ⟨wl', hw⟩ := storeFold_ok_exists ps [] hnd (fun p _ => rfl)
  obtain ⟨_, _, hchar, hlen⟩ := storeFold_ok_char ps [] wl' hw
  have hiff : ∀ j, j ∈ ps.map (fun p => p.1) ↔ j < ps.length :=
    fun j => ⟨hin j, hout j⟩
  have hlen2 : ∀ j, j < wl'.length ↔ j < ps.length := by
    intro j
    rw [hlen j]
    constructor
    · rintro (h0 | ⟨p, hpp, hle⟩)
      · exact absurd h0 (by simp)
      · have := (hiff p.1).1 (List.mem_map_of_mem _ hpp)
        omega
    · intro hj
      obtain ⟨p, hpp, hpe⟩ := List.mem_map.1 ((hiff j).2 hj)
      right
      exact ⟨p, hpp, by omega⟩
  have hlens : wl'.length = ps.length := by
    rcases Nat.lt_trichotomy wl'.length ps.length with h | h | h
    · have := (hlen2 wl'.length).2 h
      omega
    · exact h
    · have := (hlen2 ps.length).1 h
      omega
  have hfilled : ∀ j, j < wl'.length → (wl'.getD j none).isSome = true := by
    intro j hj
    rw [hchar j]
    right
    exact (hiff j).2 ((hlen2 j).1 hj)
  have hfn : first_none wl' = none := first_none_eq_none hfilled
  have hall : ∀ x ∈ wl', x.isSome := by
    intro x hx
    obtain ⟨i, hi, he⟩ := List.mem_iff_getElem.1 hx
    have hfi := hfilled i hi
    rw [List.getD_eq_getElem?_getD, List.getElem?_eq_getElem hi, he] at hfi
    exact hfi
  have hro : wl'.reduceOption.length = wl'.length :=
    List.reduceOption_length_eq_iff.2 hall
  have hN : wl'.reduceOption.length = ps.length := by rw [hro, hlens]
  rw [read_wordlist_of_storeFold hp, hw]
  show (match first_none wl' with
    | some i => Except.error (Err.missingIndex i)
    | none =>
      if wl'.reduceOption.length = 0 then Except.error Err.mathDomain
      else if ¬ is_full_base_x wl'.reduceOption.length 2 ∧
        ¬ is_full_base_x wl'.reduceOption.length 6
      then Except.error (Err.invalidSize wl'.reduceOption.length)
      else Except.ok wl'.reduceOption) = Except.error (Err.invalidSize ps.length)
  rw [hfn, hN]
  have hpos : 0 < ps.length := List.length_pos.2 hne
  rw [if_neg (by omega)]
  rw [if_pos ⟨by simp [hf2], by simp [hf6]⟩]

/-- C5: with every line parseable, (1) a repeated index fails with the
duplicate-index error; (2) with distinct indices, an unassigned index below
an assigned one fails with the missing-index error; (3) with indices
exactly `0..N-1`, a positive total `N` that is a power of neither 2 nor 6
fails with the invalid-size error.  In each case the `Except` value is an
error, so no partially-usable word list is returned.  (A total of 0 — an
empty file — raises `math.log`'s domain error instead of the invalid-size
error; see the counterexample.) -/
theorem C5_read_wordlist_errors (lines : List String) (ps : List (Nat × String))
    (hp : parses 0 lines = some ps) :
    (¬ (ps.map (fun p => p.1)).Nodup →
      ∃ i, read_wordlist lines = .error (.dupIndex i)) ∧
    ((ps.map (fun p => p.1)).Nodup →
      (∃ i ∈ ps.map (fun p => p.1), ∃ j, j < i ∧ j ∉ ps.map (fun p => p.1)) →
      ∃ j, read_wordlist lines = .error (.missingIndex j)) ∧
    ((ps.map (fun p => p.1)).Nodup →
      (∀ i ∈ ps.map (fun p => p.1), i < ps.length) →
      (∀ j, j < ps.length → j ∈ ps.map (fun p => p.1)) →
      ps ≠ [] →
      is_full_base_x ps.length 2 = false →
      is_full_base_x ps.length 6 = false →
      read_wordlist lines = .error (.invalidSize ps.length)) := by
  refine ⟨?_, ?_, ?_⟩
  · intro hdup
    rcases storeFold_total ps [] with ⟨wl', hw⟩ | ⟨i, hw⟩
    · exact absurd (storeFold_ok_char ps [] wl' hw).1 hdup
    · refine ⟨i, ?_⟩
      rw [read_wordlist_of_storeFold hp, hw]
  · intro hnd hgap
    obtain ⟨wl', hw⟩ := storeFold_ok_exists ps [] hnd (fun p _ => rfl)
    obtain ⟨j, hj⟩ := C5_missing_core hw hgap
    refine ⟨j, ?_⟩
    rw [read_wordlist_of_storeFold hp, hw]
    show (match first_none wl' with
      | some i => Except.error (Err.missingIndex i)
      | none =>
        if wl'.reduceOption.length = 0 then Except.error Err.mathDomain
        else if ¬ is_full_base_x wl'.reduceOption.length 2 ∧
          ¬ is_full_base_x wl'.reduceOption.length 6
        then Except.error (Err.invalidSize wl'.reduceOption.length)
        else Except.ok wl'.reduceOption) = Except.error (Err.missingIndex j)
    rw [hj]
  · exact fun hnd hin hout hne hf2 hf6 => C5_invalid_core hp hnd hin hout hne hf2 hf6

/-- C5 counterexample: an empty word-list source has total word count 0,
which is a power of neither 2 nor 6, yet `read_wordlist` does not raise
the invalid-size error there: `math.log(0, 2)` raises its domain error
first. -/
theorem C5_counterexample :
    read_wordlist ([] : List String) = .error .mathDomain ∧
    read_wordlist ([] : List String) ≠ .error (.invalidSize 0) := by
  constructor
  · rfl
  · intro h
    exact Err.noConfusion (Except.error.inj h)

theorem C5_witness :
    (∃ i, read_wordlist ["11\ta", "11\tb"] = .error (.dupIndex i)) ∧
    (∃ j, read_wordlist ["12\ta"] = .error (.missingIndex j)) ∧
    read_wordlist ["a", "b", "c"] = .error (.invalidSize 3) :=
  ⟨(C5_read_wordlist_errors ["11\ta", "11\tb"] [(0, "a"), (0, "b")] rfl).1 (by decide),
   (C5_read_wordlist_errors ["12\ta"] [(1, "a")] rfl).2.1 (by decide) (by decide),
   (C5_read_wordlist_errors ["a", "b", "c"] [(0, "a"), (1, "b"), (2, "c")] rfl).2.2
     (by decide) (by decide) (by decide) (by decide) (by decide) (by decide)⟩

/-! ### Dice codes -/

theorem dice_digit_eq_some {c : Char} (h : (dice_digit c).isSome) :
    dice_digit c = some (c.toNat - 49) := by
  unfold dice_digit at h ⊢
  by_cases hc : '1' ≤ c ∧ c ≤ '6'
  · rw [if_pos hc]
  · rw [if_neg hc] at h
    exact Bool.noConfusion h

theorem decode_dice_go_eq : ∀ (l : List Char) (pos : Nat),
    (∀ c ∈ l, (dice_digit c).isSome) →
    decode_dice_go l pos =
      .ok (6 ^ pos * from_digits (l.map (fun c => c.toNat - 49)) 6) := by
  intro l
  induction l with
  | nil =>
    intro pos _
    rw [show decode_dice_go [] pos = .ok 0 from rfl]
    simp [from_digits_nil]
  | cons c rest ih =>
    intro pos h
    rw [show decode_dice_go (c :: rest) pos =
      (match dice_digit c with
      | some hx =>
        match decode_dice_go rest (pos + 1) with
        | .ok r => .ok (hx * 6 ^ pos + r)
        | .error e => .error e
      | none => .error .badDice) from rfl]
    rw [dice_digit_eq_some (h c (List.mem_cons_self c rest)),
      ih (pos + 1) (fun x hx => h x (List.mem_cons_of_mem c hx))]
    show Except.ok _ = Except.ok _
    rw [List.map_cons, from_digits_cons]
    congr 1
    ring

theorem horner_foldl : ∀ (l : List Char) (a : Nat),
    l.foldl (fun a c => 6 * a + (c.toNat - 49)) a =
      a * 6 ^ l.length + from_digits (l.reverse.map (fun c => c.toNat - 49)) 6 := by
  intro l
  induction l with
  | nil => intro a; simp [from_digits_nil]
  | cons c rest ih =>
    intro a
    rw [List.foldl_cons, ih (6 * a + (c.toNat - 49)), List.reverse_cons, List.map_append,
      from_digits_append]
    rw [List.length_cons, List.length_map, List.length_reverse]
    rw [show List.map (fun c => c.toNat - 49) [c] = [c.toNat - 49] from rfl]
    rw [show from_digits [c.toNat - 49] 6 = (c.toNat - 49) + 6 * 0 from rfl]
    ring

/-- C10: `decode_dice` accepts a dice string of any length over `'1'..'6'`
and returns its value read most-significant character first with digit
value character − '1'; consequently `read_wordlist` accepts a Diceware
file whose code column has 4 characters (here spanning indices 0..35,
a complete base-6 range of 36 = 6^2 words). -/
theorem C10_decode_dice (s : String) (h : valid_dice s) :
    decode_dice s = .ok (dice_msb_value s) ∧
    read_wordlist dice4_lines = .ok dice4_words := by
  constructor
  · unfold decode_dice
    rw [decode_dice_go_eq s.data.reverse 0 (by intro c hc; exact h c (List.mem_reverse.1 hc))]
    unfold dice_msb_value
    rw [horner_foldl s.data 0, pow_zero, one_mul]
    simp
  · rfl

theorem C10_witness :
    valid_dice "2413" ∧ decode_dice "2413" = .ok 326 ∧
      read_wordlist dice4_lines = .ok dice4_words := by
  refine ⟨by decide, ?_, (C10_decode_dice "2413" (by decide)).2⟩
  have h := (C10_decode_dice "2413" (by decide)).1
  rw [h]
  rfl

/-! ### The inverse word list (C4) and the full-base check (C3) -/

/-- C4 (amended): for a word list accepted by `read_wordlist` whose words
are pairwise distinct, `generate_inverse_wordlist` is a bijection: it has
one entry per index, maps each (already lower-cased) stored word back to
its unique index, and every dict entry points back to its word. -/
theorem C4_inverse_bijection (lines : List String) (wl : List String)
    (hread : read_wordlist lines = .ok wl) (hnd : wl.Nodup) :
    (∀ w ∈ wl, py_lower w = w) ∧
    (generate_inverse_wordlist wl).length = wl.length ∧
    (∀ j (hj : j < wl.length),
      dict_get (generate_inverse_wordlist wl) (wl.get ⟨j, hj⟩) = some j) ∧
    (∀ w v, (w, v) ∈ generate_inverse_wordlist wl →
      ∃ hv : v < wl.length, wl.get ⟨v, hv⟩ = w) :=
  ⟨read_ok_lower hread, inverse_length hnd,
   fun j hj => dict_get_word hnd j hj,
   fun _ _ h => inverse_mem hnd h⟩

/-- C4 counterexample: `read_wordlist` accepts a flat list with the same
word at two indices (it validates only the index space), and the derived
Python dict then has a single entry, with the word of index 0 mapping to
index 1 — not a bijection with the word list. -/
theorem C4_counterexample :
    read_wordlist ["a", "a"] = .ok ["a", "a"] ∧
    (generate_inverse_wordlist ["a", "a"]).length = 1 ∧
    dict_get (generate_inverse_wordlist ["a", "a"]) "a" = some 1 :=
  ⟨rfl, rfl, rfl⟩

theorem C4_witness :
    read_wordlist ["a", "b"] = .ok ["a", "b"] ∧ (["a", "b"] : List String).Nodup ∧
    ((∀ w ∈ (["a", "b"] : List String), py_lower w = w) ∧
      (generate_inverse_wordlist ["a", "b"]).length = (["a", "b"] : List String).length ∧
      (∀ j (hj : j < (["a", "b"] : List String).length),
        dict_get (generate_inverse_wordlist ["a", "b"])
          ((["a", "b"] : List String).get ⟨j, hj⟩) = some j) ∧
      (∀ w v, (w, v) ∈ generate_inverse_wordlist ["a", "b"] →
        ∃ hv : v < (["a", "b"] : List String).length,
          (["a", "b"] : List String).get ⟨v, hv⟩ = w)) :=
  ⟨rfl, by decide, C4_inverse_bijection ["a", "b"] ["a", "b"] rfl (by decide)⟩

/-- C3: 216 = 6^3 is an exact power of 6, so a correct `is_full_base_x`
must return true at (216, 6); the exact-arithmetic embedding does.  The
Python source instead computes `math.modf(math.log(216, 6))[0] == 0` on
IEEE doubles, where `log(216)/log(6)` rounds to 2.9999999999999996, and
returns `False` — the floating-point false negative the spec's design
notes warn about. -/
theorem C3_is_full_base_exact : 6 ^ 3 = 216 ∧ is_full_base_x 216 6 = true := by
  constructor
  · rfl
  · rw [is_full_base_x_iff (by omega)]
    exact ⟨3, rfl⟩

/-! ### The mnemonic codec -/

theorem wl_lookup_ok {wl : List String} {i : Nat} (h : i < wl.length) :
    wl_lookup wl i = .ok (wl.getD i "") := by
  unfold wl_lookup
  rw [List.get?_eq_getElem?, List.getElem?_eq_getElem h]
  rw [List.getD_eq_getElem?_getD, List.getElem?_eq_getElem h]
  rfl

theorem map_words_ok (wl : List String) : ∀ idxs : List Nat,
    (∀ i ∈ idxs, i < wl.length) →
    map_words wl idxs = .ok (idxs.map (fun i => py_title (wl.getD i ""))) := by
  intro idxs
  induction idxs with
  | nil => intro _; rfl
  | cons i rest ih =>
    intro h
    have hi := h i (List.mem_cons_self i rest)
    rw [show map_words wl (i :: rest) =
      (match wl_lookup wl i with
      | .ok word =>
        match map_words wl rest with
        | .ok ws => .ok (py_title word :: ws)
        | .error e => .error e
      | .error e => .error e) from rfl]
    rw [wl_lookup_ok hi, ih (fun x hx => h x (List.mem_cons_of_mem i hx))]
    rfl

theorem getD_mem {wl : List String} {i : Nat} (h : i < wl.length) :
    wl.getD i "" ∈ wl := by
  rw [List.getD_eq_getElem?_getD, List.getElem?_eq_getElem h]
  exact List.getElem_mem h

theorem pad_mod (a k : Nat) (hk : 1 ≤ k) : k ∣ (a + (k - a % k) % k) := by
  by_cases hr : a % k = 0
  · rw [hr, Nat.sub_zero, Nat.mod_self, Nat.add_zero]
    exact Nat.dvd_of_mod_eq_zero hr
  · have hrlt : a % k < k := Nat.mod_lt a (by omega)
    have hm : (k - a % k) % k = k - a % k := Nat.mod_eq_of_lt (by omega)
    rw [hm]
    refine ⟨a / k + 1, ?_⟩
    have hda : k * (a / k) + a % k = a := Nat.div_add_mod a k
    have hexp : k * (a / k + 1) = k * (a / k) + k := by ring
    omega

theorem decode_hexal_value_eq {k : Nat} (idxs : List Nat)
    (h : ∀ i ∈ idxs, i < 6 ^ k) :
    decode_hexal_value idxs k = from_digits idxs (6 ^ k) := by
  unfold decode_hexal_value
  have hlen : ∀ blk ∈ idxs.map (fun value => convert_base_x value 6 ++
      List.replicate (k - (convert_base_x value 6).length) 0), blk.length = k := by
    intro blk hb
    obtain ⟨i, hi, rfl⟩ := List.mem_map.1 hb
    rw [List.length_append, List.length_replicate]
    have := convert_length_le (by omega) k i (h i hi)
    omega
  rw [from_digits_flatten _ hlen, List.map_map]
  congr 1
  have hval : ∀ i ∈ idxs, from_digits (convert_base_x i 6 ++
      List.replicate (k - (convert_base_x i 6).length) 0) 6 = i := by
    intro i _
    rw [from_digits_append, from_digits_replicate_zero, Nat.mul_zero, Nat.add_zero]
    exact from_digits_convert (by omega) i
  have hcomp : idxs.map ((fun blk => from_digits blk 6) ∘
      (fun value => convert_base_x value 6 ++
        List.replicate (k - (convert_base_x value 6).length) 0)) = idxs.map id :=
    List.map_congr_left (fun i hi => hval i hi)
  rw [hcomp, List.map_id]

theorem decode_words {wl : List String} (hnd : wl.Nodup)
    (hlow : ∀ w ∈ wl, py_lower w = w) (idxs : List Nat)
    (hin : ∀ i ∈ idxs, i < wl.length) :
    ((idxs.map (fun i => py_title (wl.getD i ""))).map py_lower).map
        (fun w => (dict_get (generate_inverse_wordlist wl) w).getD 0) = idxs ∧
    ((idxs.map (fun i => py_title (wl.getD i ""))).map py_lower).find?
        (fun w => !(dict_get (generate_inverse_wordlist wl) w).isSome) = none := by
  have hlw : ∀ i, i < wl.length → py_lower (py_title (wl.getD i "")) = wl.getD i "" := by
    intro i h
    exact py_lower_title_fixed (hlow _ (getD_mem h))
  have hmapl : (idxs.map (fun i => py_title (wl.getD i ""))).map py_lower =
      idxs.map (fun i => wl.getD i "") := by
    rw [List.map_map]
    exact List.map_congr_left (fun i hi => hlw i (hin i hi))
  have hget : ∀ i, i < wl.length →
      dict_get (generate_inverse_wordlist wl) (wl.getD i "") = some i := by
    intro i h
    have hgw := dict_get_word hnd i h
    have he : wl.getD i "" = wl.get ⟨i, h⟩ := by
      rw [List.getD_eq_getElem?_getD, List.getElem?_eq_getElem h]
      rfl
    rw [he]
    exact hgw
  constructor
  · rw [hmapl, List.map_map]
    calc idxs.map ((fun w => (dict_get (generate_inverse_wordlist wl) w).getD 0) ∘
        (fun i => wl.getD i ""))
        = idxs.map id := List.map_congr_left (fun i hi => by
          show (dict_get (generate_inverse_wordlist wl) (wl.getD i "")).getD 0 = i
          rw [hget i (hin i hi)]
          rfl)
      _ = idxs := List.map_id idxs
  · rw [hmapl, List.find?_eq_none]
    intro w hw
    obtain ⟨i, hi, rfl⟩ := List.mem_map.1 hw
    rw [hget i (hin i hi)]
    simp

theorem decode_mnemonic_found_some {mnemonic : List String}
    {inv : List (String × Nat)} {w : String}
    (hf : (mnemonic.map py_lower).find? (fun x => !(dict_get inv x).isSome) = some w) :
    decode_mnemonic mnemonic inv = .error (.unknownWord w) := by
  unfold decode_mnemonic
  rw [hf]

theorem decode_mnemonic_found_none {mnemonic : List String}
    {inv : List (String × Nat)}
    (hf : (mnemonic.map py_lower).find? (fun x => !(dict_get inv x).isSome) = none) :
    decode_mnemonic mnemonic inv =
      (if inv.length = 0 then .error .mathDomain
      else if is_full_base_x inv.length 6 then
        up2bit_decode (decode_hexal_value
          ((mnemonic.map py_lower).map (fun w => (dict_get inv w).getD 0))
          (ilog 6 inv.length))
      else
        up2bit_decode (from_digits
          ((mnemonic.map py_lower).map (fun w => (dict_get inv w).getD 0))
          (2 ^ ilog 2 inv.length))) := by
  unfold decode_mnemonic
  rw [hf]

theorem encode_hexal_ok {wl : List String} {k : Nat} (hN : wl.length = 6 ^ k)
    (hk : 1 ≤ k) (v : Nat) :
    (∀ i ∈ (chunk k (convert_base_x v 6 ++ List.replicate
        ((k - (convert_base_x v 6).length % k) % k) 0)).map
        (fun blk => from_digits blk 6), i < wl.length) ∧
    encode_hexal v wl = .ok (((chunk k (convert_base_x v 6 ++ List.replicate
        ((k - (convert_base_x v 6).length % k) % k) 0)).map
        (fun blk => from_digits blk 6)).map (fun i => py_title (wl.getD i ""))) := by
  have hk6 : ilog 6 wl.length = k := by
    rw [hN]
    exact ilog_pow (by omega) k
  have hdvd : k ∣ (convert_base_x v 6 ++ List.replicate
      ((k - (convert_base_x v 6).length % k) % k) 0).length := by
    rw [List.length_append, List.length_replicate]
    exact pad_mod (convert_base_x v 6).length k hk
  obtain ⟨hblk, hflat⟩ := chunk_props hk (convert_base_x v 6 ++ List.replicate
      ((k - (convert_base_x v 6).length % k) % k) 0).length _ rfl hdvd
  have hdig : ∀ d ∈ (convert_base_x v 6 ++ List.replicate
      ((k - (convert_base_x v 6).length % k) % k) 0), d < 6 := by
    intro d hd
    rcases List.mem_append.1 hd with hd' | hd'
    · exact convert_lt (by omega) v d hd'
    · rw [List.eq_of_mem_replicate hd']
      omega
  have hidx : ∀ i ∈ (chunk k (convert_base_x v 6 ++ List.replicate
      ((k - (convert_base_x v 6).length % k) % k) 0)).map (fun blk => from_digits blk 6),
      i < wl.length := by
    intro i hi
    obtain ⟨blk, hb, rfl⟩ := List.mem_map.1 hi
    have h1 : blk.length = k := hblk blk hb
    have h2 : ∀ d ∈ blk, d < 6 := by
      intro d hd
      apply hdig
      rw [← hflat]
      exact List.mem_flatten.2 ⟨blk, hb, hd⟩
    calc from_digits blk 6 < 6 ^ blk.length := from_digits_lt blk h2
      _ = 6 ^ k := by rw [h1]
      _ = wl.length := hN.symm
  refine ⟨hidx, ?_⟩
  unfold encode_hexal
  rw [hk6, if_neg (by omega)]
  exact map_words_ok wl _ hidx

theorem encode_binary_ok {wl : List String} {k : Nat} (hN : wl.length = 2 ^ k)
    (hk : 1 ≤ k) (v : Nat) :
    (∀ i ∈ bin_chunks k v, i < wl.length) ∧
    encode_binary v wl = .ok ((bin_chunks k v).map (fun i => py_title (wl.getD i ""))) := by
  have hk2 : ilog 2 wl.length = k := by
    rw [hN]
    exact ilog_pow (by omega) k
  have h2k : 2 ≤ 2 ^ k := by
    calc (2 : Nat) = 2 ^ 1 := rfl
      _ ≤ 2 ^ k := Nat.pow_le_pow_right (by omega) hk
  have hidx : ∀ i ∈ bin_chunks k v, i < wl.length := by
    rw [bin_chunks_eq k v, hN]
    exact convert_lt h2k v
  refine ⟨hidx, ?_⟩
  unfold encode_binary
  rw [hk2]
  exact map_words_ok wl _ hidx

theorem encode_hexal_roundtrip {wl : List String} {k : Nat} (hnd : wl.Nodup)
    (hlow : ∀ w ∈ wl, py_lower w = w) (hN : wl.length = 6 ^ k) (hk : 1 ≤ k)
    (h6 : is_full_base_x wl.length 6 = true) (v : Nat) :
    ∃ m, encode_hexal v wl = .ok m ∧
      decode_mnemonic m (generate_inverse_wordlist wl) = up2bit_decode v := by
  obtain ⟨hidx, hm⟩ := encode_hexal_ok hN hk v
  refine ⟨_, hm, ?_⟩
  have hk6 : ilog 6 wl.length = k := by
    rw [hN]
    exact ilog_pow (by omega) k
  have hdvd : k ∣ (convert_base_x v 6 ++ List.replicate
      ((k - (convert_base_x v 6).length % k) % k) 0).length := by
    rw [List.length_append, List.length_replicate]
    exact pad_mod (convert_base_x v 6).length k hk
  obtain ⟨hblk, hflat⟩ := chunk_props hk (convert_base_x v 6 ++ List.replicate
      ((k - (convert_base_x v 6).length % k) % k) 0).length _ rfl hdvd
  obtain ⟨hvals, hfind⟩ := decode_words hnd hlow _ hidx
  rw [decode_mnemonic_found_none hfind, inverse_length hnd]
  have hNpos : wl.length ≠ 0 := by
    rw [hN]
    have : 1 ≤ 6 ^ k := Nat.one_le_pow _ _ (by omega)
    omega
  rw [if_neg hNpos, if_pos h6, hvals, hk6]
  congr 1
  rw [decode_hexal_value_eq _ (by rw [← hN]; exact hidx)]
  rw [← from_digits_flatten _ hblk, hflat, from_digits_append,
    from_digits_replicate_zero, Nat.mul_zero, Nat.add_zero]
  exact from_digits_convert (by omega) v

theorem encode_binary_roundtrip {wl : List String} {k : Nat} (hnd : wl.Nodup)
    (hlow : ∀ w ∈ wl, py_lower w = w) (hN : wl.length = 2 ^ k) (hk : 1 ≤ k)
    (h6 : is_full_base_x wl.length 6 = false) (v : Nat) :
    ∃ m, encode_binary v wl = .ok m ∧
      decode_mnemonic m (generate_inverse_wordlist wl) = up2bit_decode v := by
  obtain ⟨hidx, hm⟩ := encode_binary_ok hN hk v
  refine ⟨_, hm, ?_⟩
  have hk2 : ilog 2 wl.length = k := by
    rw [hN]
    exact ilog_pow (by omega) k
  have h2k : 2 ≤ 2 ^ k := by
    calc (2 : Nat) = 2 ^ 1 := rfl
      _ ≤ 2 ^ k := Nat.pow_le_pow_right (by omega) hk
  obtain ⟨hvals, hfind⟩ := decode_words hnd hlow _ hidx
  rw [decode_mnemonic_found_none hfind, inverse_length hnd]
  have hNpos : wl.length ≠ 0 := by omega
  rw [if_neg hNpos, if_neg (by rw [h6]; exact Bool.false_ne_true), hvals, hk2]
  congr 1
  rw [bin_chunks_eq k v]
  exact from_digits_convert h2k v

/-- C1 (amended): for every word list accepted by `read_wordlist` that has
at least two words, all pairwise distinct, and every sequence over
`{A,C,T,G}` (including the empty one), decoding the mnemonic produced by
`encode_sequence` against the inverse word list derived from the same word
list returns exactly the original sequence — in both the hexal
(power-of-6) and binary (power-of-2) word-list modes. -/
theorem C1_roundtrip (lines wl : List String) (s : String)
    (hread : read_wordlist lines = .ok wl) (hnd : wl.Nodup)
    (hlen : 2 ≤ wl.length) (hdna : valid_dna s) :
    ∃ m, encode_sequence s wl = .ok m ∧
      decode_mnemonic m (generate_inverse_wordlist wl) = .ok s := by
  obtain ⟨hpos, hfb⟩ := read_ok_size hread
  have hlow := read_ok_lower hread
  have hdec := up2bit_decode_u2 s.data hdna
  have henc : encode_sequence s wl =
      (if wl.length = 0 then .error .mathDomain
      else if is_full_base_x wl.length 6 then encode_hexal (u2 s.data) wl
      else encode_binary (u2 s.data) wl) := by
    unfold encode_sequence
    rw [up2bit_eq hdna]
  rw [henc, if_neg (by omega)]
  cases h6 : is_full_base_x wl.length 6 with
  | true =>
    obtain ⟨k, hk⟩ := (is_full_base_x_iff (by omega : 2 ≤ 6)).1 h6
    have hk1 : 1 ≤ k := by
      by_contra hk0
      push_neg at hk0
      interval_cases k
      rw [pow_zero] at hk
      omega
    obtain ⟨m, hm, hd⟩ := encode_hexal_roundtrip hnd hlow hk.symm hk1 h6 (u2 s.data)
    refine ⟨m, ?_, by rw [hd]; exact hdec⟩
    rw [if_pos rfl]
    exact hm
  | false =>
    have h2 : is_full_base_x wl.length 2 = true := by
      rcases hfb with h | h
      · exact h
      · rw [h6] at h
        exact Bool.noConfusion h
    obtain ⟨k, hk⟩ := (is_full_base_x_iff (by omega : 2 ≤ 2)).1 h2
    have hk1 : 1 ≤ k := by
      by_contra hk0
      push_neg at hk0
      interval_cases k
      rw [pow_zero] at hk
      omega
    obtain ⟨m, hm, hd⟩ := encode_binary_roundtrip hnd hlow hk.symm hk1 h6 (u2 s.data)
    refine ⟨m, ?_, by rw [hd]; exact hdec⟩
    rw [if_neg Bool.false_ne_true]
    exact hm

/-- C1 counterexample: two word lists accepted by `read_wordlist` on which
the round trip fails.  With the duplicate-word list `["a", "a"]` (size 2,
binary mode) the encoded mnemonic of `"A"` decodes through the one-entry
inverse dict into a parity `FormatError` instead of `"A"`; with the
one-word list `["a"]` (size 1, hexal mode with block size 0) encoding
itself raises `ZeroDivisionError`. -/
theorem C1_counterexample :
    (read_wordlist ["a", "a"] = .ok ["a", "a"] ∧
      encode_sequence "A" ["a", "a"] = .ok ["A", "A", "A"] ∧
      decode_mnemonic ["A", "A", "A"] (generate_inverse_wordlist ["a", "a"]) =
        .error .formatParity) ∧
    (read_wordlist ["a"] = .ok ["a"] ∧
      encode_sequence "A" ["a"] = .error .zeroDivision) :=
  ⟨⟨rfl, rfl, rfl⟩, rfl, rfl⟩

theorem C1_witness :
    read_wordlist ["a", "b"] = .ok ["a", "b"] ∧ (["a", "b"] : List String).Nodup ∧
    2 ≤ (["a", "b"] : List String).length ∧ valid_dna "AC" ∧
    ∃ m, encode_sequence "AC" ["a", "b"] = .ok m ∧
      decode_mnemonic m (generate_inverse_wordlist ["a", "b"]) = .ok "AC" :=
  ⟨rfl, by decide, by decide, by decide,
    C1_roundtrip ["a", "b"] ["a", "b"] "AC" rfl (by decide) (by decide) (by decide)⟩

theorem encode_hexal_ne_nil {k v : Nat} (hk : 1 ≤ k) (hv : 1 ≤ v)
    (g : Nat → String) :
    ((chunk k (convert_base_x v 6 ++ List.replicate
      ((k - (convert_base_x v 6).length % k) % k) 0)).map
        (fun blk => from_digits blk 6)).map g ≠ [] := by
  have hcne : convert_base_x v 6 ≠ [] := by
    rw [convert_rec (by omega) (by omega)]
    exact List.cons_ne_nil _ _
  have hpne : convert_base_x v 6 ++ List.replicate
      ((k - (convert_base_x v 6).length % k) % k) 0 ≠ [] := by
    intro he
    exact hcne (List.append_eq_nil.1 he).1
  rw [chunk_rec hk hpne, List.map_cons, List.map_cons]
  exact List.cons_ne_nil _ _

theorem encode_binary_ne_nil {k v : Nat} (hk2 : 2 ≤ 2 ^ k) (hv : 1 ≤ v)
    (g : Nat → String) :
    (bin_chunks k v).map g ≠ [] := by
  rw [bin_chunks_eq k v, convert_rec hk2 (by omega), List.map_cons]
  exact List.cons_ne_nil _ _

/-- C9: for every sequence over `{A,C,T,G}` (including the empty one) and
every word list accepted by `read_wordlist` with at least two words,
`encode_sequence` succeeds and returns a non-empty mnemonic: the up2bit
value is at least 1 (the cap), so at least one block is emitted in both
the hexal and the binary paths. -/
theorem C9_encode_nonempty (lines wl : List String) (s : String)
    (hread : read_wordlist lines = .ok wl) (hlen : 2 ≤ wl.length)
    (hdna : valid_dna s) :
    ∃ m, encode_sequence s wl = .ok m ∧ m ≠ [] := by
  obtain ⟨hpos, hfb⟩ := read_ok_size hread
  have hv1 : 1 ≤ u2 s.data := u2_pos s.data
  have henc : encode_sequence s wl =
      (if wl.length = 0 then .error .mathDomain
      else if is_full_base_x wl.length 6 then encode_hexal (u2 s.data) wl
      else encode_binary (u2 s.data) wl) := by
    unfold encode_sequence
    rw [up2bit_eq hdna]
  rw [henc, if_neg (by omega)]
  cases h6 : is_full_base_x wl.length 6 with
  | true =>
    obtain ⟨k, hk⟩ := (is_full_base_x_iff (by omega : 2 ≤ 6)).1 h6
    have hk1 : 1 ≤ k := by
      by_contra hk0
      push_neg at hk0
      interval_cases k
      rw [pow_zero] at hk
      omega
    obtain ⟨hidx, hm⟩ := encode_hexal_ok hk.symm hk1 (u2 s.data)
    refine ⟨_, ?_, encode_hexal_ne_nil hk1 hv1 (fun i => py_title (wl.getD i ""))⟩
    rw [if_pos rfl]
    exact hm
  | false =>
    have h2 : is_full_base_x wl.length 2 = true := by
      rcases hfb with h | h
      · exact h
      · rw [h6] at h
        exact Bool.noConfusion h
    obtain ⟨k, hk⟩ := (is_full_base_x_iff (by omega : 2 ≤ 2)).1 h2
    have hk1 : 1 ≤ k := by
      by_contra hk0
      push_neg at hk0
      interval_cases k
      rw [pow_zero] at hk
      omega
    have h2k : 2 ≤ 2 ^ k := by
      calc (2 : Nat) = 2 ^ 1 := rfl
        _ ≤ 2 ^ k := Nat.pow_le_pow_right (by omega) hk1
    obtain ⟨hidx, hm⟩ := encode_binary_ok hk.symm hk1 (u2 s.data)
    refine ⟨_, ?_, encode_binary_ne_nil h2k hv1 (fun i => py_title (wl.getD i ""))⟩
    rw [if_neg Bool.false_ne_true]
    exact hm

theorem C9_witness :
    read_wordlist ["a", "b"] = .ok ["a", "b"] ∧
    2 ≤ (["a", "b"] : List String).length ∧ valid_dna "" ∧
    ∃ m, encode_sequence "" ["a", "b"] = .ok m ∧ m ≠ [] :=
  ⟨rfl, by decide, by decide,
    C9_encode_nonempty ["a", "b"] ["a", "b"] "" rfl (by decide) (by decide)⟩

/-- C8: `decode_mnemonic` lower-cases every word before lookup — decoding
a mnemonic equals decoding its lower-cased form — and when some word's
lower-cased form is absent from the inverse word list, it fails with
`UnknownWordError` naming the first such (lower-cased) word, before any
index values are produced (the `Except` result carries no values). -/
theorem C8_unknown_word (mnemonic : List String) (inv : List (String × Nat)) :
    decode_mnemonic mnemonic inv = decode_mnemonic (mnemonic.map py_lower) inv ∧
    (∀ w, (mnemonic.map py_lower).find? (fun x => !(dict_get inv x).isSome) = some w →
      decode_mnemonic mnemonic inv = .error (.unknownWord w)) := by
  constructor
  · have hmm : (mnemonic.map py_lower).map py_lower = mnemonic.map py_lower := by
      rw [List.map_map]
      exact List.map_congr_left (fun w _ => py_lower_idem w)
    unfold decode_mnemonic
    rw [hmm]
  · intro w hw
    exact decode_mnemonic_found_some hw

theorem C8_witness :
    ((["Zebra"] : List String).map py_lower).find?
        (fun x => !(dict_get [("a", 0)] x).isSome) = some "zebra" ∧
    decode_mnemonic ["Zebra"] [("a", 0)] = .error (.unknownWord "zebra") ∧
    decode_mnemonic ["Zebra"] [("a", 0)] = decode_mnemonic ["zebra"] [("a", 0)] :=
  ⟨rfl, (C8_unknown_word ["Zebra"] [("a", 0)]).2 "zebra" rfl,
    (C8_unknown_word ["Zebra"] [("a", 0)]).1⟩
